import Mathlib

/-! # Afina `SimpleLRU`: a byte-budgeted LRU cache

Shallow embedding of `src/storage/SimpleLRU.h` and `src/storage/SimpleLRU.cpp`.

* `std::size_t` values are natural numbers below `2 ^ 64`; `+`, `-` and `+=`, `-=`
  on them are the wrapping operations `szAdd`, `szSub`.
* `std::string` is a Lean `String`; one Lean character stands for one byte, so
  `size()` is `String.length` (reduced modulo `2 ^ 64`).
* Nodes live in an explicit heap `Nat → Option lru_node`. A raw pointer and the
  pointer held by a `std::unique_ptr` are both an `Option Nat` (`none` is
  `nullptr`). Dereferencing a null or dangling pointer is undefined behaviour and
  makes the operation return `none`.
* `new lru_node` takes the next unused address `brk`; releasing a node through its
  owning `unique_ptr` runs the node's destructor (which releases the chain owned by
  its `next` field) and empties the heap cell.
* `std::map` is an association list with the three operations the code uses
  (`find`, `emplace`, `erase`); the mapped key is the (immutable) key string of the
  referenced node.
* The constructor gives `_lru_tail` no initial value. A new cache `SimpleLRU.mk0 max_size tail0`
  starts with the indeterminate value `tail0` in it, and the theorems about call sequences
  hold for every `tail0`.
* The loop of `freeSpace` and the destructor chain of `delete` take fuel; the fuel handed to
  them (`brk`, the number of nodes ever allocated) is shown to be enough.

The theorems about call sequences assume `InSpace`: at every call, the bytes of the entries
held by the list and the bytes of the string arguments together are fewer than `2 ^ 64`, as
they are for strings that coexist in a 64-bit address space. Under this assumption no sum of
sizes wraps around.
-/

namespace Afina
namespace Backend

/-! ## Machine integers and strings -/

/-- The number of values of `std::size_t`. -/
def SIZE_MOD : Nat := 2 ^ 64

/-- Addition of `std::size_t`. -/
def szAdd (a b : Nat) : Nat := (a + b) % SIZE_MOD

/-- Subtraction of `std::size_t` (wraps around below zero). -/
def szSub (a b : Nat) : Nat := (a + (SIZE_MOD - b % SIZE_MOD)) % SIZE_MOD

/-- The value of `std::string::size()`. -/
def strSize (s : String) : Nat := s.length % SIZE_MOD

/-! ## Data model -/

/-- The struct `lru_node`: `prev` is a raw pointer, `next` an owning `unique_ptr`. -/
structure lru_node where
  key : String
  value : String
  prev : Option Nat
  next : Option Nat

/-- The memory holding the nodes, by address. -/
abbrev Heap := Nat → Option lru_node

/-- Overwrite one heap cell. -/
def Heap.write (h : Heap) (a : Nat) (c : Option lru_node) : Heap :=
  fun b => if b = a then c else h b

/-- The fields of class `SimpleLRU`, with the heap its pointers refer to. -/
structure SimpleLRU where
  _max_size : Nat
  _current_size : Nat
  _lru_head : Option Nat
  _lru_tail : Option Nat
  _lru_index : List (String × Nat)
  heap : Heap
  brk : Nat

/-- The constructor `SimpleLRU(size_t max_size)`. Its initialiser list sets `_max_size` and
`_current_size` only. `_lru_head` and `_lru_index` are default-constructed, hence empty. The
raw pointer `_lru_tail` has no initialiser: it holds whatever its storage held, the
indeterminate value `tail0`, until the code first assigns it. -/
def SimpleLRU.mk0 (max_size : Nat) (tail0 : Option Nat) : SimpleLRU :=
  { _max_size := max_size, _current_size := 0, _lru_head := none, _lru_tail := tail0,
    _lru_index := [], heap := fun _ => none, brk := 0 }

/-! ## `std::map` operations used by the code -/

/-- The call `_lru_index.find(key)`; `none` is `end()`. -/
def indexFind : List (String × Nat) → String → Option Nat
  | [], _ => none
  | (k, a) :: rest, key => if k = key then some a else indexFind rest key

/-- The call `_lru_index.emplace(key, node)`: no effect when the key is already mapped. -/
def indexEmplace (m : List (String × Nat)) (key : String) (a : Nat) : List (String × Nat) :=
  match indexFind m key with
  | some _ => m
  | none => (key, a) :: m

/-- The call `_lru_index.erase(key)`. -/
def indexErase (m : List (String × Nat)) (key : String) : List (String × Nat) :=
  m.filter (fun p => decide (p.1 ≠ key))

/-! ## `std::unique_ptr` operations -/

/-- The places of type `std::unique_ptr<lru_node>`: `_lru_head` and the `next` field of a node. -/
inductive UPtr where
  | head : UPtr
  | next : Nat → UPtr

/-- Read the pointer held by a `unique_ptr` (`get()`); reading `a->next` dereferences `a`. -/
def load (s : SimpleLRU) : UPtr → Option (Option Nat)
  | UPtr.head => some s._lru_head
  | UPtr.next a => (s.heap a).map (fun nd => nd.next)

/-- Overwrite the pointer held by a `unique_ptr`, releasing nothing. -/
def store (s : SimpleLRU) : UPtr → Option Nat → Option SimpleLRU
  | UPtr.head, v => some { s with _lru_head := v }
  | UPtr.next a, v =>
    (s.heap a).map (fun nd => { s with heap := s.heap.write a (some { nd with next := v }) })

/-- The expression `delete p`: the destructor of the node releases the chain its `next` owns,
then the node's storage is released. The chain has at most `fuel` nodes. -/
def destroy : Nat → Heap → Option Nat → Option Heap
  | _, h, none => some h
  | 0, _, some _ => none
  | fuel + 1, h, some a =>
    match h a with
    | none => none
    | some nd =>
      match destroy fuel h nd.next with
      | none => none
      | some h1 => some (h1.write a none)

/-- The call `dst.reset(v)`, also `dst = nullptr`: store `v`, then delete the old pointee. -/
def reset (s : SimpleLRU) (dst : UPtr) (v : Option Nat) : Option SimpleLRU :=
  match load s dst with
  | none => none
  | some old =>
    match store s dst v with
    | none => none
    | some s1 =>
      match destroy s1.brk s1.heap old with
      | none => none
      | some h => some { s1 with heap := h }

/-- The assignment `dst = std::move(src)`, that is `dst.reset(src.release())`. -/
def moveAssign (s : SimpleLRU) (dst src : UPtr) : Option SimpleLRU :=
  match load s src with
  | none => none
  | some v =>
    match store s src none with
    | none => none
    | some s1 => reset s1 dst v

/-- The assignment `a->prev = p`. -/
def setPrev (s : SimpleLRU) (a : Option Nat) (p : Option Nat) : Option SimpleLRU :=
  match a with
  | none => none
  | some a =>
    (s.heap a).map (fun nd => { s with heap := s.heap.write a (some { nd with prev := p }) })

/-- The assignment `a->value = v`. -/
def setValue (s : SimpleLRU) (a : Nat) (v : String) : Option SimpleLRU :=
  (s.heap a).map (fun nd => { s with heap := s.heap.write a (some { nd with value := v }) })

/-! ## The private member functions -/

/-- The function `SimpleLRU::deleteNode`. A call that returns, returns `true`; the result here
is the state after the call. -/
def deleteNode (s : SimpleLRU) (node : Option Nat) : Option SimpleLRU :=
  match node with
  | none => none
  | some a =>
    match s.heap a with
    | none => none
    | some nd =>
      let prev := nd.prev
      let next := nd.next
      let s1 : SimpleLRU :=
        { s with _current_size := szSub s._current_size (szAdd (strSize nd.key) (strSize nd.value)) }
      let s2 : SimpleLRU := { s1 with _lru_index := indexErase s1._lru_index nd.key }
      match next, prev with
      | none, none => reset { s2 with _lru_tail := none } UPtr.head none
      | none, some p => reset { s2 with _lru_tail := some p } (UPtr.next p) none
      | some n, none =>
        match moveAssign s2 UPtr.head (UPtr.next a) with
        | none => none
        | some s3 => setPrev s3 (some n) none
      | some n, some p =>
        match setPrev s2 (some n) (some p) with
        | none => none
        | some s3 => moveAssign s3 (UPtr.next p) (UPtr.next a)

/-- The choice made by `if (!node || node->next)` in `freeSpace`: the node to hand to
`deleteNode` (`_lru_tail` or `node->prev`). Reading `node->next` dereferences `node`. -/
def victim (s : SimpleLRU) (node : Option Nat) : Option (Option Nat) :=
  match node with
  | none => some s._lru_tail
  | some a =>
    match s.heap a with
    | none => none
    | some nd =>
      match nd.next with
      | some _ => some s._lru_tail
      | none => some nd.prev

/-- The loop of `SimpleLRU::freeSpace`, run for at most `fuel` iterations. -/
def freeSpaceLoop : Nat → SimpleLRU → Option Nat → Option SimpleLRU
  | 0, s, _ => if s._current_size > s._max_size then none else some s
  | fuel + 1, s, node =>
    if s._current_size > s._max_size then
      match victim s node with
      | none => none
      | some v =>
        match deleteNode s v with
        | none => none
        | some s1 => freeSpaceLoop fuel s1 node
    else some s

/-- The function `SimpleLRU::freeSpace`. Every iteration releases a node, and there are fewer
than `brk` nodes, so `brk` iterations are enough. -/
def freeSpace (s : SimpleLRU) (node : Option Nat) : Option SimpleLRU :=
  freeSpaceLoop s.brk s node

/-- The function `SimpleLRU::putAbsent`. -/
def putAbsent (s : SimpleLRU) (key value : String) : Option SimpleLRU :=
  let s1 : SimpleLRU :=
    { s with _current_size := szAdd s._current_size (szAdd (strSize key) (strSize value)) }
  match freeSpace s1 none with
  | none => none
  | some s2 =>
    let a := s2.brk
    match s2._lru_head with
    | none =>
      let s3 : SimpleLRU :=
        { s2 with heap := s2.heap.write a (some ⟨key, value, none, none⟩), brk := a + 1 }
      let s4 : SimpleLRU := { s3 with _lru_head := some a }
      let s5 : SimpleLRU := { s4 with _lru_tail := s4._lru_head }
      some { s5 with _lru_index := indexEmplace s5._lru_index key a }
    | some h =>
      let s3 : SimpleLRU :=
        { s2 with heap := s2.heap.write a (some ⟨key, value, none, some h⟩), brk := a + 1,
                  _lru_head := none }
      let s4 : SimpleLRU := { s3 with _lru_head := some a }
      match load s4 (UPtr.next a) with
      | none => none
      | some hn =>
        match setPrev s4 hn s4._lru_head with
        | none => none
        | some s5 => some { s5 with _lru_index := indexEmplace s5._lru_index key a }

/-- The second half of `SimpleLRU::setNode` (from `auto prev = node->prev;` to the end): move
`node` to the head of the list. -/
def relink (s3 : SimpleLRU) (node : Nat) : Option SimpleLRU :=
  match s3.heap node with
  | none => none
  | some nd =>
    let prev := nd.prev
    let next := nd.next
    match prev with
    | none => some s3
    | some p =>
      let relinked : Option SimpleLRU :=
        match next with
        | none =>
          match moveAssign s3 (UPtr.next node) UPtr.head with
          | none => none
          | some s4 =>
            match moveAssign s4 UPtr.head (UPtr.next p) with
            | none => none
            | some s5 =>
              match s5._lru_head with
              | none => none
              | some hd =>
                match load s5 (UPtr.next hd) with
                | none => none
                | some hn =>
                  match setPrev s5 hn (some hd) with
                  | none => none
                  | some s6 => some { s6 with _lru_tail := some p }
        | some n =>
          match setPrev s3 (some n) (some p) with
          | none => none
          | some s4 =>
            match s4._lru_tail with
            | none => none
            | some t =>
              match moveAssign s4 (UPtr.next t) UPtr.head with
              | none => none
              | some s5 =>
                match moveAssign s5 UPtr.head (UPtr.next p) with
                | none => none
                | some s6 =>
                  match s6._lru_head with
                  | none => none
                  | some hd =>
                    match moveAssign s6 (UPtr.next p) (UPtr.next hd) with
                    | none => none
                    | some s7 =>
                      match moveAssign s7 (UPtr.next hd) (UPtr.next t) with
                      | none => none
                      | some s8 =>
                        match load s8 (UPtr.next hd) with
                        | none => none
                        | some hn => setPrev s8 hn (some hd)
      match relinked with
      | none => none
      | some s9 =>
        match s9._lru_tail with
        | none => none
        | some t =>
          match reset s9 (UPtr.next t) none with
          | none => none
          | some s10 => setPrev s10 s10._lru_head none

/-- The function `SimpleLRU::setNode`: the size update, the eviction and the assignment of the
value, then `relink`. -/
def setNode (s : SimpleLRU) (node : Nat) (value : String) : Option SimpleLRU :=
  match s.heap node with
  | none => none
  | some nd0 =>
    let s1 : SimpleLRU :=
      { s with _current_size := szAdd s._current_size (szSub (strSize value) (strSize nd0.value)) }
    match freeSpace s1 (some node) with
    | none => none
    | some s2 =>
      match setValue s2 node value with
      | none => none
      | some s3 => relink s3 node

/-! ## The public interface -/

/-- The function `SimpleLRU::Put`. -/
def Put (s : SimpleLRU) (key value : String) : Option (Bool × SimpleLRU) :=
  if szAdd (strSize key) (strSize value) > s._max_size then some (false, s)
  else
    match indexFind s._lru_index key with
    | some a => (setNode s a value).map (fun s1 => (true, s1))
    | none => (putAbsent s key value).map (fun s1 => (true, s1))

/-- The function `SimpleLRU::PutIfAbsent`. -/
def PutIfAbsent (s : SimpleLRU) (key value : String) : Option (Bool × SimpleLRU) :=
  if szAdd (strSize key) (strSize value) > s._max_size then some (false, s)
  else
    match indexFind s._lru_index key with
    | some _ => some (false, s)
    | none => (putAbsent s key value).map (fun s1 => (true, s1))

/-- The function `SimpleLRU::Set`. -/
def Set (s : SimpleLRU) (key value : String) : Option (Bool × SimpleLRU) :=
  if szAdd (strSize key) (strSize value) > s._max_size then some (false, s)
  else
    match indexFind s._lru_index key with
    | some a => (setNode s a value).map (fun s1 => (true, s1))
    | none => some (false, s)

/-- The function `SimpleLRU::Delete`. -/
def Delete (s : SimpleLRU) (key : String) : Option (Bool × SimpleLRU) :=
  match indexFind s._lru_index key with
  | none => some (false, s)
  | some a => (deleteNode s (some a)).map (fun s1 => (true, s1))

/-- The function `SimpleLRU::Get`; `value` is the caller's string passed by reference, the
second component of the result is that string after the call. -/
def Get (s : SimpleLRU) (key : String) (value : String) : Option (Bool × String × SimpleLRU) :=
  match indexFind s._lru_index key with
  | none => some (false, value, s)
  | some a =>
    match s.heap a with
    | none => none
    | some nd =>
      let value1 := nd.value
      (setNode s a value1).map (fun s1 => (true, value1, s1))

/-! ## Observations on a cache state -/

/-- The `(key, value)` pairs met when following `next` from `p`, for at most `fuel` nodes. -/
def walk : Nat → Heap → Option Nat → List (String × String)
  | 0, _, _ => []
  | _ + 1, _, none => []
  | fuel + 1, h, some a =>
    match h a with
    | none => []
    | some nd => (nd.key, nd.value) :: walk fuel h nd.next

/-- The recency list read from head (most recently used) to tail. -/
def entries (s : SimpleLRU) : List (String × String) := walk s.brk s.heap s._lru_head

/-- The addresses met when following `next` from `p`, for at most `fuel` nodes. -/
def walkNodes : Nat → Heap → Option Nat → List Nat
  | 0, _, _ => []
  | _ + 1, _, none => []
  | fuel + 1, h, some a =>
    match h a with
    | none => []
    | some nd => a :: walkNodes fuel h nd.next

/-- The addresses of the nodes of the recency list, from head to tail. -/
def nodes (s : SimpleLRU) : List Nat := walkNodes s.brk s.heap s._lru_head

/-- The key of the node a pointer refers to. -/
def nodeKey (s : SimpleLRU) (p : Option Nat) : Option String :=
  match p with
  | none => none
  | some a => (s.heap a).map (fun nd => nd.key)

/-- The cost `len(key) + len(value)` of an entry, as a natural number. -/
def cost (e : String × String) : Nat := e.1.length + e.2.length

/-- The number of bytes held by the entries of the recency list. -/
def listBytes (s : SimpleLRU) : Nat := ((entries s).map cost).sum

/-- A call of the public interface. -/
inductive Call where
  | put : String → String → Call
  | putIfAbsent : String → String → Call
  | set : String → String → Call
  | delete : String → Call
  | get : String → Call

/-- The bytes of the string arguments of a call. -/
def Call.argBytes : Call → Nat
  | Call.put k v => k.length + v.length
  | Call.putIfAbsent k v => k.length + v.length
  | Call.set k v => k.length + v.length
  | Call.delete k => k.length
  | Call.get k => k.length

/-- The key a call is about. -/
def Call.key : Call → String
  | Call.put k _ => k
  | Call.putIfAbsent k _ => k
  | Call.set k _ => k
  | Call.delete k => k
  | Call.get k => k

/-- The calls that count as an access of their key when they succeed (all but `Delete`). -/
def Call.isAccess : Call → Bool
  | Call.delete _ => false
  | _ => true

/-- Perform one call; the result is the returned `bool` and the next state. -/
def call (s : SimpleLRU) : Call → Option (Bool × SimpleLRU)
  | Call.put k v => Put s k v
  | Call.putIfAbsent k v => PutIfAbsent s k v
  | Call.set k v => Set s k v
  | Call.delete k => Delete s k
  | Call.get k => (Get s k "").map (fun r => (r.1, r.2.2))

/-- Perform a sequence of calls. -/
def run (s : SimpleLRU) : List Call → Option SimpleLRU
  | [] => some s
  | c :: cs =>
    match call s c with
    | none => none
    | some r => run r.2 cs

/-- Decide whether the strings involved in every call of the sequence fit a 64-bit address
space together with the strings the cache holds at that moment. -/
def inSpace (s : SimpleLRU) : List Call → Bool
  | [] => true
  | c :: cs =>
    decide (listBytes s + c.argBytes < SIZE_MOD) &&
      match call s c with
      | none => true
      | some r => inSpace r.2 cs

/-- The strings involved in every call of the sequence fit a 64-bit address space together
with the strings the cache holds at that moment. -/
def InSpace (s : SimpleLRU) (cs : List Call) : Prop := inSpace s cs = true

instance (s : SimpleLRU) (cs : List Call) : Decidable (InSpace s cs) :=
  inferInstanceAs (Decidable (inSpace s cs = true))

/-! ## Ghost view of a state: the nodes of the recency list, head first -/

/-- A node of the recency list: its address and its contents. -/
structure Ent where
  addr : Nat
  key : String
  value : String

/-- The `(key, value)` pair of a node. -/
def Ent.kv (e : Ent) : String × String := (e.key, e.value)

/-- The addresses of a list of nodes. -/
def addrs (es : List Ent) : List Nat := es.map Ent.addr

/-- The keys of a list of nodes. -/
def keysOf (es : List Ent) : List String := es.map Ent.key

/-- The index entries of a list of nodes. -/
def idxOf (es : List Ent) : List (String × Nat) := es.map (fun e => (e.key, e.addr))

/-- The bytes held by a list of nodes. -/
def sumCost (es : List Ent) : Nat := (es.map (fun e => cost e.kv)).sum

/-- The address of the first node, or `q` for no node. -/
def hdOr (es : List Ent) (q : Option Nat) : Option Nat :=
  match es with
  | [] => q
  | e :: _ => some e.addr

/-- The address of the last node, or `p` for no node. -/
def lastOr : List Ent → Option Nat → Option Nat
  | [], p => p
  | e :: es, _ => lastOr es (some e.addr)

/-- The heap holds the nodes `es` as a doubly linked segment entered from `p` and left to `q`. -/
def Seg (h : Heap) : Option Nat → List Ent → Option Nat → Prop
  | _, [], _ => True
  | p, e :: es, q => h e.addr = some ⟨e.key, e.value, p, hdOr es q⟩ ∧ Seg h (some e.addr) es q

/-- The state represents the recency list `es`: the links, the end points, the index. The tail
pointer is the last node of a list that is not empty; on an empty list it is whatever was
last assigned to it, if anything was. -/
structure Shape (s : SimpleLRU) (es : List Ent) : Prop where
  seg : Seg s.heap none es none
  head : s._lru_head = hdOr es none
  tail : es ≠ [] → s._lru_tail = lastOr es none
  nodupA : (addrs es).Nodup
  nodupK : (keysOf es).Nodup
  index : s._lru_index.Perm (idxOf es)
  fresh : ∀ a ∈ addrs es, a < s.brk
  card : es.length ≤ s.brk
  owned : ∀ a, a ∉ addrs es → s.heap a = none

/-- The representation invariant between public calls. -/
structure Inv (s : SimpleLRU) (es : List Ent) : Prop where
  shape : Shape s es
  acct : s._current_size = sumCost es
  budget : s._current_size ≤ s._max_size
  cap : s._max_size < SIZE_MOD

/-- The outcome of evicting from the tail end: `kept` is what is left of `others` once the
bytes of `kept` together with `pend` further bytes fit in `cap`; the first dropped node did
not fit. -/
def Evicted (cap pend : Nat) (others kept : List Ent) : Prop :=
  ∃ dropped, others = kept ++ dropped ∧ sumCost kept + pend ≤ cap ∧
    ∀ d ds, dropped = d :: ds → cap < sumCost kept + (d.key.length + d.value.length) + pend

/-! ## Notions used to state the claims -/

/-- A sequence of calls that goes through all five operations, with hits, misses, an eviction
and an oversized request, on a cache of 10 bytes. -/
def sampleCalls : List Call :=
  [Call.put "a" "1", Call.putIfAbsent "b" "22", Call.putIfAbsent "a" "x", Call.set "a" "333",
   Call.get "b", Call.put "c" "4444", Call.get "zz", Call.put "d" "0123456789",
   Call.delete "b", Call.set "q" "1", Call.delete "q"]

/-- In the spec's words: `kept` is the list `old` "with its shortest tail-side suffix removed
such that the total cost is ≤ max_size", the total being `extra` bytes plus the bytes of
`kept`. -/
def ShortestSuffixRemoved (max_size extra : Nat) (old kept : List (String × String)) : Prop :=
  ∃ dropped, old = kept ++ dropped ∧ extra + (kept.map cost).sum ≤ max_size ∧
    ∀ kept2 dropped2, old = kept2 ++ dropped2 → dropped2.length < dropped.length →
      max_size < extra + (kept2.map cost).sum

/-- The state reached by the first six calls of `sampleCalls`: the entries `c`, `b`. -/
def sampleState : SimpleLRU :=
  (run (SimpleLRU.mk0 10 none) (sampleCalls.take 6)).getD (SimpleLRU.mk0 10 none)

/-- The time of the last successful access of every key: starting from the table `m`, the
calls `cs` are run from state `s`, the first of them at time `t`, and a `Put`, `PutIfAbsent`,
`Set` or `Get` that returns true records its time for its key. -/
def accessLog : SimpleLRU → Nat → List Call → (String → Option Nat) → String → Option Nat
  | _, _, [], m => m
  | s, t, c :: cs, m =>
    match call s c with
    | none => m
    | some r =>
      accessLog r.2 (t + 1) cs
        (if r.1 && c.isAccess then fun k => if k = c.key then some t else m k else m)

/-- The time (position in `cs`) of the last successful access of key `k` when `cs` is run on a
new cache, whose tail pointer starts as `tail0`. -/
def lastAccess (max_size : Nat) (tail0 : Option Nat) (cs : List Call) (k : String) : Option Nat :=
  accessLog (SimpleLRU.mk0 max_size tail0) 0 cs (fun _ => none) k

/-- Key `k1` was last accessed strictly later than key `k2`. -/
def Later (m : String → Option Nat) (k1 k2 : String) : Prop :=
  ∃ t1 t2, m k1 = some t1 ∧ m k2 = some t2 ∧ t2 < t1

/-- The keys `ks` all have an access time before `t`, and stand in strictly decreasing order of
access time. -/
def Recent (m : String → Option Nat) (t : Nat) (ks : List String) : Prop :=
  (∀ k ∈ ks, ∃ u, m k = some u ∧ u < t) ∧ ks.Pairwise (Later m)

/-- The calls of the spec's end-to-end scenario 2. -/
def scenario2 : List Call :=
  [Call.put "k1" "vvvv", Call.put "k2" "vvvv", Call.put "k3" "v"]

/-- Calls that leave the entries `a`, `b`, `c` (head to tail), of 2 bytes each, in a cache of
10 bytes. -/
def threeCalls : List Call := [Call.put "c" "1", Call.put "b" "1", Call.put "a" "1"]

/-- The composition the spec compares `Put` with: `PutIfAbsent`, and `Set` only if that
returned false; the result is the disjunction of the two results. -/
def putIfAbsentElseSet (s : SimpleLRU) (key value : String) : Option (Bool × SimpleLRU) :=
  match PutIfAbsent s key value with
  | none => none
  | some (true, s1) => some (true, s1)
  | some (false, s1) =>
    match Set s1 key value with
    | none => none
    | some (r, s2) => some (false || r, s2)

/-- Calls on a cache of 2 bytes: an entry with empty key and empty value, then an entry of
exactly 2 bytes. -/
def exactCalls : List Call := [Call.put "" "", Call.put "a" "b"]

/-- The loop of `SimpleLRU::freeSpace` once more, recording the pointers its iterations hand to
`deleteNode`, in order. -/
def freeSpaceVictims : Nat → SimpleLRU → Option Nat → List (Option Nat)
  | 0, _, _ => []
  | fuel + 1, s, node =>
    if s._current_size > s._max_size then
      match victim s node with
      | none => []
      | some v =>
        v :: (match deleteNode s v with
          | none => []
          | some s1 => freeSpaceVictims fuel s1 node)
    else []

/-- The state `s` with `_current_size` set to `c`: the state in which `putAbsent` and `setNode`
call `freeSpace` is `s` with the updated size. -/
def withSize (s : SimpleLRU) (c : Nat) : SimpleLRU := { s with _current_size := c }

/-- Calls that fail on a new cache: nothing is stored, so no call assigns `_lru_tail`. -/
def uninitCalls : List Call := [Call.get "a", Call.delete "a"]

/-! ## Arithmetic of `std::size_t` -/

theorem szAdd_eq {a b : Nat} (h : a + b < SIZE_MOD) : szAdd a b = a + b := by
  unfold szAdd; exact Nat.mod_eq_of_lt h

theorem strSize_eq {s : String} (h : s.length < SIZE_MOD) : strSize s = s.length := by
  unfold strSize; exact Nat.mod_eq_of_lt h

theorem szSub_eq {a b : Nat} (hb : b ≤ a) (ha : a < SIZE_MOD) : szSub a b = a - b := by
  unfold szSub
  simp only [SIZE_MOD] at *
  omega

theorem szAdd_szSub {c n o : Nat} (ho : o ≤ c) (hn : n < SIZE_MOD) (hc : c - o + n < SIZE_MOD) :
    szAdd c (szSub n o) = c - o + n := by
  unfold szAdd szSub
  simp only [SIZE_MOD] at *
  omega

/-! ## The heap -/

@[simp] theorem Heap.write_same (h : Heap) (a : Nat) (c : Option lru_node) :
    h.write a c a = c := by
  simp [Heap.write]

theorem Heap.write_other (h : Heap) {a b : Nat} (c : Option lru_node) (hne : b ≠ a) :
    h.write a c b = h b := by
  simp [Heap.write, hne]

/-! ## The ghost list -/

@[simp] theorem addrs_nil : addrs [] = [] := rfl
@[simp] theorem addrs_cons (e : Ent) (es : List Ent) : addrs (e :: es) = e.addr :: addrs es := rfl
@[simp] theorem addrs_append (xs ys : List Ent) : addrs (xs ++ ys) = addrs xs ++ addrs ys := by
  simp [addrs]
@[simp] theorem keysOf_nil : keysOf [] = [] := rfl
@[simp] theorem keysOf_cons (e : Ent) (es : List Ent) : keysOf (e :: es) = e.key :: keysOf es := rfl
@[simp] theorem keysOf_append (xs ys : List Ent) : keysOf (xs ++ ys) = keysOf xs ++ keysOf ys := by
  simp [keysOf]
@[simp] theorem idxOf_nil : idxOf [] = [] := rfl
@[simp] theorem idxOf_cons (e : Ent) (es : List Ent) :
    idxOf (e :: es) = (e.key, e.addr) :: idxOf es := rfl
@[simp] theorem idxOf_append (xs ys : List Ent) : idxOf (xs ++ ys) = idxOf xs ++ idxOf ys := by
  simp [idxOf]
@[simp] theorem sumCost_nil : sumCost [] = 0 := rfl
@[simp] theorem sumCost_cons (e : Ent) (es : List Ent) :
    sumCost (e :: es) = (e.key.length + e.value.length) + sumCost es := rfl
@[simp] theorem sumCost_append (xs ys : List Ent) :
    sumCost (xs ++ ys) = sumCost xs + sumCost ys := by
  simp [sumCost]

theorem mem_keysOf_of_mem {e : Ent} {es : List Ent} (h : e ∈ es) : e.key ∈ keysOf es :=
  List.mem_map_of_mem _ h

@[simp] theorem hdOr_nil (q : Option Nat) : hdOr [] q = q := rfl
@[simp] theorem hdOr_cons (e : Ent) (es : List Ent) (q : Option Nat) :
    hdOr (e :: es) q = some e.addr := rfl
@[simp] theorem lastOr_nil (p : Option Nat) : lastOr [] p = p := rfl
@[simp] theorem lastOr_cons (e : Ent) (es : List Ent) (p : Option Nat) :
    lastOr (e :: es) p = lastOr es (some e.addr) := rfl

theorem hdOr_some (es : List Ent) (q : Nat) : ∃ a, hdOr es (some q) = some a := by
  cases es with
  | nil => exact ⟨q, rfl⟩
  | cons e es => exact ⟨e.addr, rfl⟩

@[simp] theorem hdOr_append (xs ys : List Ent) (q : Option Nat) :
    hdOr (xs ++ ys) q = hdOr xs (hdOr ys q) := by
  cases xs <;> rfl

@[simp] theorem lastOr_append (xs ys : List Ent) (p : Option Nat) :
    lastOr (xs ++ ys) p = lastOr ys (lastOr xs p) := by
  induction xs generalizing p with
  | nil => rfl
  | cons x xs ih => simp [ih]

@[simp] theorem Seg_nil (h : Heap) (p q : Option Nat) : Seg h p [] q = True := rfl
@[simp] theorem Seg_cons (h : Heap) (p q : Option Nat) (e : Ent) (es : List Ent) :
    Seg h p (e :: es) q =
      (h e.addr = some ⟨e.key, e.value, p, hdOr es q⟩ ∧ Seg h (some e.addr) es q) := rfl

@[simp] theorem Seg_append (h : Heap) (xs ys : List Ent) (p q : Option Nat) :
    Seg h p (xs ++ ys) q ↔ Seg h p xs (hdOr ys q) ∧ Seg h (lastOr xs p) ys q := by
  induction xs generalizing p with
  | nil => simp
  | cons x xs ih => simp [ih, and_assoc]

/-- Writing a cell outside a segment does not change the segment. -/
@[simp] theorem Seg_write (h : Heap) (a : Nat) (c : Option lru_node) (p q : Option Nat)
    (es : List Ent) (hna : a ∉ addrs es) : Seg (h.write a c) p es q ↔ Seg h p es q := by
  induction es generalizing p with
  | nil => simp
  | cons x xs ih =>
    simp only [addrs_cons, List.mem_cons, not_or] at hna
    have hx : x.addr ≠ a := fun hh => hna.1 hh.symm
    simp [ih _ hna.2, Heap.write_other h c hx]

/-- Following `next` along a segment that ends in null reads the segment. -/
theorem walk_Seg {h : Heap} {p : Option Nat} {es : List Ent} (hs : Seg h p es none)
    {fuel : Nat} (hf : es.length ≤ fuel) : walk fuel h (hdOr es none) = es.map Ent.kv := by
  induction es generalizing p fuel with
  | nil => cases fuel <;> simp [walk]
  | cons x xs ih =>
    cases fuel with
    | zero => simp at hf
    | succ n =>
      simp only [List.length_cons, Nat.add_le_add_iff_right] at hf
      simp [walk, hs.1, ih hs.2 hf, Ent.kv]

theorem Shape.entries_eq {s : SimpleLRU} {es : List Ent} (hs : Shape s es) :
    entries s = es.map Ent.kv := by
  unfold entries
  rw [hs.head]
  exact walk_Seg hs.seg hs.card

theorem listBytes_eq {s : SimpleLRU} {es : List Ent} (hs : Shape s es) :
    listBytes s = sumCost es := by
  unfold listBytes
  rw [hs.entries_eq]
  simp [sumCost, Function.comp_def]

/-! ## The index -/

theorem indexFind_mem {m : List (String × Nat)} {k : String} {a : Nat}
    (h : indexFind m k = some a) : (k, a) ∈ m := by
  induction m with
  | nil => simp [indexFind] at h
  | cons x xs ih =>
    obtain ⟨k1, a1⟩ := x
    simp only [indexFind] at h
    split at h
    · next hk => simp at h; subst hk; subst h; simp
    · exact List.mem_cons_of_mem _ (ih h)

theorem indexFind_none {m : List (String × Nat)} {k : String} :
    indexFind m k = none ↔ k ∉ m.map Prod.fst := by
  induction m with
  | nil => simp [indexFind]
  | cons x xs ih =>
    obtain ⟨k1, a1⟩ := x
    simp only [indexFind, List.map_cons, List.mem_cons, not_or]
    split
    · next hk => simp [hk]
    · next hk => simp [ih, Ne.symm hk]

theorem indexFind_of_mem {m : List (String × Nat)} {k : String} {a : Nat}
    (hnd : (m.map Prod.fst).Nodup) (h : (k, a) ∈ m) : indexFind m k = some a := by
  induction m with
  | nil => simp at h
  | cons x xs ih =>
    obtain ⟨k1, a1⟩ := x
    simp only [List.map_cons, List.nodup_cons] at hnd
    simp only [List.mem_cons, Prod.mk.injEq] at h
    simp only [indexFind]
    rcases h with ⟨rfl, rfl⟩ | h
    · simp
    · have : k1 ≠ k := by
        rintro rfl
        exact hnd.1 (List.mem_map_of_mem Prod.fst h)
      simp [this, ih hnd.2 h]

theorem idxOf_map_fst (es : List Ent) : (idxOf es).map Prod.fst = keysOf es := by
  simp [idxOf, keysOf, Function.comp_def]

theorem Shape.index_nodup {s : SimpleLRU} {es : List Ent} (hs : Shape s es) :
    (s._lru_index.map Prod.fst).Nodup := by
  have := (hs.index.map Prod.fst).nodup_iff
  rw [this, idxOf_map_fst]
  exact hs.nodupK

theorem Shape.find_mem {s : SimpleLRU} {es : List Ent} (hs : Shape s es) {e : Ent}
    (he : e ∈ es) : indexFind s._lru_index e.key = some e.addr := by
  apply indexFind_of_mem hs.index_nodup
  apply hs.index.symm.subset
  exact List.mem_map_of_mem (fun e => (e.key, e.addr)) he

theorem Shape.find_none {s : SimpleLRU} {es : List Ent} (hs : Shape s es) {k : String} :
    indexFind s._lru_index k = none ↔ k ∉ keysOf es := by
  rw [indexFind_none, ← idxOf_map_fst]
  exact not_congr (hs.index.map Prod.fst).mem_iff

theorem Shape.find_some {s : SimpleLRU} {es : List Ent} (hs : Shape s es) {k : String} {a : Nat}
    (h : indexFind s._lru_index k = some a) :
    ∃ xs e ys, es = xs ++ e :: ys ∧ e.key = k ∧ e.addr = a := by
  have hm := hs.index.subset (indexFind_mem h)
  simp only [idxOf, List.mem_map, Prod.mk.injEq] at hm
  obtain ⟨e, he, hk, ha⟩ := hm
  obtain ⟨xs, ys, rfl⟩ := List.append_of_mem he
  exact ⟨xs, e, ys, rfl, hk, ha⟩

theorem idxOf_filter_ne {es : List Ent} {k : String} (h : k ∉ keysOf es) :
    (idxOf es).filter (fun p => decide (p.1 ≠ k)) = idxOf es := by
  rw [List.filter_eq_self]
  intro p hp
  simp only [idxOf, List.mem_map] at hp
  obtain ⟨e, he, rfl⟩ := hp
  have : e.key ≠ k := fun hh => h (hh ▸ mem_keysOf_of_mem he)
  simpa using this

theorem indexErase_perm {m : List (String × Nat)} {xs ys : List Ent} {e : Ent}
    (hp : m.Perm (idxOf (xs ++ e :: ys))) (hnd : (keysOf (xs ++ e :: ys)).Nodup) :
    (indexErase m e.key).Perm (idxOf (xs ++ ys)) := by
  unfold indexErase
  refine (hp.filter _).trans ?_
  simp only [keysOf_append, keysOf_cons, List.nodup_append, List.nodup_cons, List.mem_cons,
    List.Disjoint] at hnd
  have h1 : e.key ∉ keysOf xs := fun hh => hnd.2.2 hh (Or.inl rfl)
  have h2 : e.key ∉ keysOf ys := hnd.2.1.1
  rw [idxOf_append, idxOf_cons, List.filter_append, List.filter_cons, idxOf_filter_ne h1,
    idxOf_filter_ne h2, idxOf_append]
  simp

/-! ## `deleteNode` unlinks one node -/

@[simp] theorem destroy_null (fuel : Nat) (h : Heap) : destroy fuel h none = some h := by
  cases fuel <;> rfl

theorem destroy_some (fuel : Nat) (h : Heap) (a : Nat) :
    destroy fuel h (some a) =
      if 0 < fuel then
        match h a with
        | none => none
        | some nd =>
          match destroy (fuel - 1) h nd.next with
          | none => none
          | some h1 => some (h1.write a none)
      else none := by
  cases fuel with
  | zero => rfl
  | succ n => simp [destroy]

theorem nodup_remove {α : Type} {xs ys : List α} {e : α} (h : (xs ++ e :: ys).Nodup) :
    (xs ++ ys).Nodup :=
  h.sublist (List.Sublist.append (List.Sublist.refl xs) (List.sublist_cons_self e ys))

theorem deleteNode_spec {s : SimpleLRU} {xs ys : List Ent} {e : Ent}
    (hs : Shape s (xs ++ e :: ys)) :
    ∃ s', deleteNode s (some e.addr) = some s' ∧ Shape s' (xs ++ ys) ∧
      s'._current_size = szSub s._current_size (szAdd (strSize e.key) (strSize e.value)) ∧
      s'._max_size = s._max_size ∧ s'.brk = s.brk := by
  have hb : 0 < s.brk := Nat.lt_of_le_of_lt (Nat.zero_le _) (hs.fresh e.addr (by simp))
  obtain ⟨L, hL⟩ : ∃ L, L = xs ++ ys := ⟨_, rfl⟩
  have gA : (addrs L).Nodup := by
    have := hs.nodupA
    rw [addrs_append, addrs_cons] at this
    rw [hL, addrs_append]
    exact nodup_remove this
  have gK : (keysOf L).Nodup := by
    have := hs.nodupK
    rw [keysOf_append, keysOf_cons] at this
    rw [hL, keysOf_append]
    exact nodup_remove this
  have gI : (indexErase s._lru_index e.key).Perm (idxOf L) :=
    hL ▸ indexErase_perm hs.index hs.nodupK
  have gF : ∀ a ∈ addrs L, a < s.brk := by
    intro a ha
    apply hs.fresh
    rw [hL] at ha
    simp only [addrs_append, addrs_cons, List.mem_append, List.mem_cons] at ha ⊢
    tauto
  have gC : L.length ≤ s.brk := by
    have := hs.card
    rw [hL]
    simp only [List.length_append, List.length_cons] at this ⊢
    omega
  have gO : ∀ b, b ∉ addrs L → b ≠ e.addr → s.heap b = none := by
    intro b hb hbe
    apply hs.owned
    rw [hL] at hb
    simp only [addrs_append, addrs_cons, List.mem_append, List.mem_cons] at hb ⊢
    tauto
  have hseg := hs.seg
  have hnd := hs.nodupA
  have hhead := hs.head
  have htail := hs.tail
  rw [← hL]
  rcases List.eq_nil_or_concat xs with rfl | ⟨xs0, p, rfl⟩
  · cases ys with
    | nil =>
      simp at hseg hhead htail
      simp [deleteNode, hseg, load, store, reset, Heap.write, hb, destroy_some, hhead]
      refine ⟨by simp [hL], by simp [hL], by simp [hL], gA, gK, gI, gF, gC, ?_⟩
      intro b hb
      have hb2 := hb
      rw [hL] at hb2
      simp at hb2
      by_cases hbe : b = e.addr
      · rw [hbe]
        simp (disch := omega) [Heap.write_other]
      · simp (disch := omega) [Heap.write_other, gO b hb hbe]
    | cons n ys1 =>
      simp at hseg hhead htail
      simp [List.nodup_cons] at hnd
      obtain ⟨he, hn, hy⟩ := hseg
      obtain ⟨⟨hen, hey⟩, hny, -⟩ := hnd
      have hne := Ne.symm hen
      simp [deleteNode, he, hn, setPrev, moveAssign, load, store, reset, Heap.write, hen, hne,
        hb, destroy_some, hhead]
      refine ⟨?_, by simp [hL], by simp [hL, htail], gA, gK, gI, gF, gC, ?_⟩
      · simp [hL, Heap.write, hen, hne, hey, hny, hy]
      · intro b hb
        have hb2 := hb
        rw [hL] at hb2
        simp at hb2
        by_cases hbe : b = e.addr
        · rw [hbe]
          simp (disch := omega) [Heap.write_other]
        · simp (disch := omega) [Heap.write_other, gO b hb hbe]
  · cases ys with
    | nil =>
      simp at hseg hhead htail
      simp [List.nodup_append, List.nodup_cons, List.disjoint_cons_right] at hnd
      obtain ⟨hx, hp, he⟩ := hseg
      obtain ⟨-, hpe, hpx, hex⟩ := hnd
      have hep := Ne.symm hpe
      simp [deleteNode, hp, he, setPrev, moveAssign, load, store, reset, Heap.write, hpe, hep,
        hb, destroy_some]
      refine ⟨?_, by simp [hL, hhead], by simp [hL], gA, gK, gI, gF, gC, ?_⟩
      · simp [hL, Heap.write, hpe, hep, hpx, hex, hx]
      · intro b hb
        have hb2 := hb
        rw [hL] at hb2
        simp at hb2
        by_cases hbe : b = e.addr
        · rw [hbe]
          simp (disch := omega) [Heap.write_other]
        · simp (disch := omega) [Heap.write_other, gO b hb hbe]
    | cons n ys1 =>
      simp at hseg hhead htail
      simp [List.nodup_append, List.nodup_cons, List.disjoint_cons_right] at hnd
      obtain ⟨hx, hp, he, hn, hy⟩ := hseg
      obtain ⟨-, ⟨⟨hpe, hpn, hpy⟩, ⟨hen, hey⟩, hny, -⟩, hpx, hex, hnx, -⟩ := hnd
      have hep := Ne.symm hpe
      have hnp := Ne.symm hpn
      have hne := Ne.symm hen
      simp [deleteNode, hp, he, hn, setPrev, moveAssign, load, store, reset, Heap.write, hpe, hpn,
        hen, hep, hnp, hne, hb, destroy_some]
      refine ⟨?_, by simp [hL, hhead], by simp [hL, htail], gA, gK, gI, gF, gC, ?_⟩
      · simp [hL, Heap.write, hpe, hpn, hen, hep, hnp, hne, hpx, hex, hnx, hpy, hey, hny, hx, hy]
      · intro b hb
        have hb2 := hb
        rw [hL] at hb2
        simp at hb2
        by_cases hbe : b = e.addr
        · rw [hbe]
          simp (disch := omega) [Heap.write_other]
        · simp (disch := omega) [Heap.write_other, gO b hb hbe]

/-! ## `freeSpace` evicts from the tail end -/

theorem Evicted.refl {cap pend : Nat} {l : List Ent} (h : sumCost l + pend ≤ cap) :
    Evicted cap pend l l :=
  ⟨[], by simp, h, by simp⟩

theorem Evicted.snoc {cap pend : Nat} {l kept : List Ent} {t : Ent}
    (h : Evicted cap pend l kept)
    (ht : cap < sumCost l + (t.key.length + t.value.length) + pend) :
    Evicted cap pend (l ++ [t]) kept := by
  obtain ⟨dropped, hl, hfit, hfirst⟩ := h
  refine ⟨dropped ++ [t], by simp [hl], hfit, ?_⟩
  intro d ds hd
  cases dropped with
  | nil =>
    simp only [List.nil_append, List.cons.injEq] at hd
    simp only [List.append_nil] at hl
    rw [← hd.1, ← hl]
    exact ht
  | cons d1 ds1 =>
    simp only [List.cons_append, List.cons.injEq] at hd
    rw [← hd.1]
    exact hfirst d1 ds1 rfl

theorem freeSpaceLoop_spec (P : SimpleLRU → List Ent → Prop) (node : Option Nat) (pend : Nat)
    (hstep : ∀ s l t, P s (l ++ [t]) → ∃ v s1, victim s node = some v ∧
      deleteNode s v = some s1 ∧ P s1 l ∧
      s1._current_size = szSub s._current_size (szAdd (strSize t.key) (strSize t.value)) ∧
      s1._max_size = s._max_size ∧ s1.brk = s.brk) :
    ∀ (l : List Ent) (s : SimpleLRU) (fuel : Nat), P s l → l.length ≤ fuel →
      s._current_size = sumCost l + pend → sumCost l + pend < SIZE_MOD →
      pend ≤ s._max_size →
      ∃ s' kept, freeSpaceLoop fuel s node = some s' ∧ P s' kept ∧
        Evicted s._max_size pend l kept ∧ s'._current_size = sumCost kept + pend ∧
        s'._max_size = s._max_size ∧ s'.brk = s.brk := by
  intro l
  induction l using List.reverseRecOn with
  | nil =>
    intro s fuel hP _ hcur _ hpend
    have hle : ¬ s._current_size > s._max_size := by
      rw [hcur]; simp only [sumCost_nil]; omega
    refine ⟨s, [], ?_, hP, Evicted.refl (by simpa using hpend), hcur, rfl, rfl⟩
    cases fuel <;> simp [freeSpaceLoop, hle]
  | append_singleton l t ih =>
    intro s fuel hP hfuel hcur hlt hpend
    by_cases hgt : s._current_size > s._max_size
    · obtain ⟨v, s1, hv, hdel, hP1, hc1, hm1, hb1⟩ := hstep s l t hP
      simp only [sumCost_append, sumCost_cons, sumCost_nil, Nat.add_zero] at hcur hlt
      have hcost : szAdd (strSize t.key) (strSize t.value) = t.key.length + t.value.length := by
        rw [strSize_eq (by omega), strSize_eq (by omega), szAdd_eq (by omega)]
      rw [hcost, szSub_eq (by omega) (by omega)] at hc1
      cases fuel with
      | zero => simp at hfuel
      | succ n =>
        simp only [List.length_append, List.length_cons, List.length_nil] at hfuel
        obtain ⟨s', kept, hrun, hP', hev, hc', hm', hb'⟩ :=
          ih s1 n hP1 (by omega) (by omega) (by omega) (by omega)
        refine ⟨s', kept, ?_, hP', ?_, hc', by omega, by omega⟩
        · simp [freeSpaceLoop, hgt, hv, hdel, hrun]
        · rw [hm1] at hev
          exact hev.snoc (by omega)
    · refine ⟨s, l ++ [t], ?_, hP, Evicted.refl (by omega), hcur, rfl, rfl⟩
      cases fuel <;> simp [freeSpaceLoop, hgt]

theorem victim_none_step (s : SimpleLRU) (l : List Ent) (t : Ent) (hs : Shape s (l ++ [t])) :
    ∃ v s1, victim s none = some v ∧ deleteNode s v = some s1 ∧ Shape s1 l ∧
      s1._current_size = szSub s._current_size (szAdd (strSize t.key) (strSize t.value)) ∧
      s1._max_size = s._max_size ∧ s1.brk = s.brk := by
  obtain ⟨s1, hdel, hs1, h⟩ := deleteNode_spec hs
  refine ⟨some t.addr, s1, ?_, hdel, by simpa using hs1, h⟩
  simp [victim, hs.tail]

/-- One iteration of `freeSpace(node)`: `l` lists the other nodes, and `node` stands after the
first `n` of them (or at the end). -/
theorem victim_some_step (e : Ent) (n : Nat) (s : SimpleLRU) (l : List Ent) (t : Ent)
    (hs : Shape s ((l ++ [t]).take n ++ e :: (l ++ [t]).drop n)) :
    ∃ v s1, victim s (some e.addr) = some v ∧ deleteNode s v = some s1 ∧
      Shape s1 (l.take n ++ e :: l.drop n) ∧
      s1._current_size = szSub s._current_size (szAdd (strSize t.key) (strSize t.value)) ∧
      s1._max_size = s._max_size ∧ s1.brk = s.brk := by
  by_cases hn : n ≤ l.length
  · have h1 : (l ++ [t]).take n = l.take n := by
      rw [List.take_append_of_le_length hn]
    have h2 : (l ++ [t]).drop n = l.drop n ++ [t] := by
      rw [List.drop_append_of_le_length hn]
    rw [h1, h2] at hs
    have hs2 : Shape s ((l.take n ++ e :: l.drop n) ++ t :: []) := by simpa using hs
    obtain ⟨s1, hdel, hs1, h⟩ := deleteNode_spec hs2
    refine ⟨some t.addr, s1, ?_, hdel, by simpa using hs1, h⟩
    have hseg := hs.seg
    have htail := hs.tail
    simp at hseg htail
    obtain ⟨a, ha⟩ := hdOr_some (l.drop n) t.addr
    simp [victim, hseg.2.1, htail, ha]
  · have hlen : l.length < n := by omega
    have h1 : (l ++ [t]).take n = l ++ [t] := by
      apply List.take_of_length_le
      simp; omega
    have h2 : (l ++ [t]).drop n = [] := by
      apply List.drop_of_length_le
      simp; omega
    have h3 : l.take n = l := List.take_of_length_le (by omega)
    have h4 : l.drop n = [] := List.drop_of_length_le (by omega)
    rw [h1, h2] at hs
    rw [h3, h4]
    have hs2 : Shape s (l ++ t :: [e]) := by simpa using hs
    obtain ⟨s1, hdel, hs1, h⟩ := deleteNode_spec hs2
    refine ⟨some t.addr, s1, ?_, hdel, hs1, h⟩
    have hseg := hs.seg
    simp at hseg
    simp [victim, hseg.2.2]

/-! ## `putAbsent` links a new node at the head -/

theorem Shape.size_irrel {s : SimpleLRU} {es : List Ent} (hs : Shape s es) (c : Nat) :
    Shape { s with _current_size := c } es :=
  ⟨hs.seg, hs.head, hs.tail, hs.nodupA, hs.nodupK, hs.index, hs.fresh, hs.card, hs.owned⟩

theorem Evicted.keys_subset {cap pend : Nat} {l kept : List Ent} (h : Evicted cap pend l kept)
    {k : String} (hk : k ∉ keysOf l) : k ∉ keysOf kept := by
  obtain ⟨dropped, hl, -, -⟩ := h
  rw [hl, keysOf_append, List.mem_append] at hk
  exact fun hh => hk (Or.inl hh)

theorem putAbsent_spec {s : SimpleLRU} {es : List Ent} {k v : String} (hi : Inv s es)
    (hk : k ∉ keysOf es) (hfit : k.length + v.length ≤ s._max_size)
    (hsp : sumCost es + (k.length + v.length) < SIZE_MOD) :
    ∃ s' kept, putAbsent s k v = some s' ∧ Inv s' (⟨s.brk, k, v⟩ :: kept) ∧
      Evicted s._max_size (k.length + v.length) es kept ∧ s'._max_size = s._max_size := by
  have hcost : szAdd (strSize k) (strSize v) = k.length + v.length := by
    rw [strSize_eq (by omega), strSize_eq (by omega), szAdd_eq (by omega)]
  have hcur : szAdd s._current_size (k.length + v.length) = sumCost es + (k.length + v.length) := by
    rw [hi.acct, szAdd_eq hsp]
  obtain ⟨s2, kept, hrun, hs2, hev, hc2, hm2, hb2⟩ :=
    freeSpaceLoop_spec Shape none (k.length + v.length) victim_none_step es
      { s with _current_size := szAdd s._current_size (szAdd (strSize k) (strSize v)) } s.brk
      (hi.shape.size_irrel _) hi.shape.card (by simp only [hcost, hcur]) hsp hfit
  have hev' : Evicted s._max_size (k.length + v.length) es kept := hev
  simp only at hm2 hb2
  have hk2 := hev'.keys_subset hk
  have hfind := hs2.find_none.mpr hk2
  have hfresh : s2.brk ∉ addrs kept := fun hh => Nat.lt_irrefl _ (hs2.fresh _ hh)
  have hle : sumCost kept + (k.length + v.length) ≤ s._max_size := by
    obtain ⟨_, _, h, _⟩ := hev'
    exact h
  have hcap := hi.cap
  suffices h : ∃ s', putAbsent s k v = some s' ∧ Inv s' (⟨s.brk, k, v⟩ :: kept) ∧
      s'._max_size = s._max_size by
    obtain ⟨s', h1, h2, h3⟩ := h
    exact ⟨s', kept, h1, h2, hev', h3⟩
  have hhead := hs2.head
  have htail := hs2.tail
  have hseg := hs2.seg
  have hnd := hs2.nodupA
  rw [← hb2]
  have gK : (keysOf (⟨s2.brk, k, v⟩ :: kept)).Nodup := by
    simp only [keysOf_cons, List.nodup_cons]
    exact ⟨hk2, hs2.nodupK⟩
  have gA : (addrs (⟨s2.brk, k, v⟩ :: kept)).Nodup := by
    simp only [addrs_cons, List.nodup_cons]
    exact ⟨hfresh, hs2.nodupA⟩
  have gI : (indexEmplace s2._lru_index k s2.brk).Perm (idxOf (⟨s2.brk, k, v⟩ :: kept)) := by
    simp only [indexEmplace, hfind, idxOf_cons]
    exact List.Perm.cons _ hs2.index
  have gF : ∀ a ∈ addrs (⟨s2.brk, k, v⟩ :: kept), a < s2.brk + 1 := by
    intro a ha
    simp only [addrs_cons, List.mem_cons] at ha
    rcases ha with rfl | ha
    · omega
    · exact Nat.lt_succ_of_lt (hs2.fresh a ha)
  have gC : (⟨s2.brk, k, v⟩ :: kept : List Ent).length ≤ s2.brk + 1 := by
    simp only [List.length_cons]
    exact Nat.succ_le_succ hs2.card
  have gAc : s2._current_size = sumCost (⟨s2.brk, k, v⟩ :: kept) := by
    rw [hc2, sumCost_cons]; simp only; omega
  have gB : s2._current_size ≤ s2._max_size := by
    rw [hc2, hm2]; exact hle
  have gM : s2._max_size < SIZE_MOD := by
    rw [hm2]; exact hcap
  have gO : ∀ b, b ∉ addrs (⟨s2.brk, k, v⟩ :: kept) → s2.heap b = none := by
    intro b hb
    apply hs2.owned
    simp only [addrs_cons, List.mem_cons, not_or] at hb
    exact hb.2
  cases kept with
  | nil =>
    simp at hhead htail
    simp [putAbsent, freeSpace, hrun, hhead]
    refine ⟨⟨⟨?_, rfl, fun _ => rfl, gA, gK, gI, gF, gC, ?_⟩, gAc, gB, gM⟩, hm2⟩
    · simp
    · intro b hb
      have hb2 := hb
      simp at hb2
      simp (disch := omega) [Heap.write_other, gO b hb]
  | cons f rest =>
    simp at hhead htail hseg hnd hfresh
    have hfa : f.addr ≠ s2.brk := fun hh => hfresh.1 hh.symm
    have haf : s2.brk ≠ f.addr := hfresh.1
    simp [putAbsent, freeSpace, hrun, hhead, load, setPrev, Heap.write, hfa, haf, hseg.1]
    refine ⟨⟨⟨?_, rfl, ?_, gA, gK, gI, gF, gC, ?_⟩, gAc, gB, gM⟩, hm2⟩
    · simp [Heap.write, hfa, haf, hfresh.2, hnd.1, hseg.2]
    · simpa using htail
    · intro b hb
      have hb2 := hb
      simp at hb2
      simp (disch := omega) [Heap.write_other, gO b hb]

/-! ## `relink` moves a node to the head -/

theorem relink_spec {s : SimpleLRU} {xs ys : List Ent} {e : Ent}
    (hs : Shape s (xs ++ e :: ys)) :
    ∃ s', relink s e.addr = some s' ∧ Shape s' (e :: (xs ++ ys)) ∧
      s'._current_size = s._current_size ∧ s'._max_size = s._max_size ∧ s'.brk = s.brk := by
  obtain ⟨L, hL⟩ : ∃ L, L = e :: (xs ++ ys) := ⟨_, rfl⟩
  have hperm : (xs ++ e :: ys).Perm L := hL ▸ List.perm_middle
  have gA : (addrs L).Nodup := (hperm.map Ent.addr).nodup_iff.mp hs.nodupA
  have gK : (keysOf L).Nodup := (hperm.map Ent.key).nodup_iff.mp hs.nodupK
  have gI : s._lru_index.Perm (idxOf L) := hs.index.trans (hperm.map _)
  have gF : ∀ a ∈ addrs L, a < s.brk := by
    intro a ha
    exact hs.fresh a ((hperm.map Ent.addr).mem_iff.mpr ha)
  have gC : L.length ≤ s.brk := by
    rw [← hperm.length_eq]; exact hs.card
  have gO : ∀ b, b ∉ addrs L → s.heap b = none := by
    intro b hb
    exact hs.owned b (fun hh => hb ((hperm.map Ent.addr).mem_iff.mp hh))
  have hseg := hs.seg
  have hnd := hs.nodupA
  have hhead := hs.head
  have htail := hs.tail
  rw [← hL]
  rcases xs with _ | ⟨f, xs1⟩
  · simp at hseg
    simp [relink, hseg.1]
    subst hL
    exact hs
  · rcases List.eq_nil_or_concat xs1 with rfl | ⟨xm, p, rfl⟩
    · rcases ys with _ | ⟨n, ys1⟩
      · simp at hseg hhead htail
        simp [List.nodup_append, List.nodup_cons, List.disjoint_cons_right] at hnd
        simp (disch := omega) [relink, moveAssign, reset, load, store, setPrev, Heap.write_other,
          hseg, hhead, htail]
        refine ⟨?_, by simp [hL], by simp [hL], gA, gK, gI, gF, gC, ?_⟩
        · rw [hL]
          simp [hnd, hseg]
          simp (disch := omega) [Heap.write_other, hseg]
        · intro b hb
          have hb2 := hb
          rw [hL] at hb2
          simp at hb2
          simp (disch := omega) [Heap.write_other, gO b hb]
      · rcases List.eq_nil_or_concat ys1 with rfl | ⟨ym, t, rfl⟩
        · simp at hseg hhead htail
          simp [List.nodup_append, List.nodup_cons, List.disjoint_cons_right] at hnd
          simp (disch := omega) [relink, moveAssign, reset, load, store, setPrev, Heap.write_other,
            hseg, hhead, htail]
          refine ⟨?_, by simp [hL], by simp [hL], gA, gK, gI, gF, gC, ?_⟩
          · rw [hL]
            simp [hnd, hseg]
            simp (disch := omega) [Heap.write_other, hseg]
          · intro b hb
            have hb2 := hb
            rw [hL] at hb2
            simp at hb2
            simp (disch := omega) [Heap.write_other, gO b hb]
        · simp at hseg hhead htail
          simp [List.nodup_append, List.nodup_cons, List.disjoint_cons_right] at hnd
          simp (disch := omega) [relink, moveAssign, reset, load, store, setPrev, Heap.write_other,
            hseg, hhead, htail]
          refine ⟨?_, by simp [hL], by simp [hL], gA, gK, gI, gF, gC, ?_⟩
          · rw [hL]
            simp [hnd, hseg]
            simp (disch := omega) [Heap.write_other, hseg]
          · intro b hb
            have hb2 := hb
            rw [hL] at hb2
            simp at hb2
            simp (disch := omega) [Heap.write_other, gO b hb]
    · rcases ys with _ | ⟨n, ys1⟩
      · simp at hseg hhead htail
        simp [List.nodup_append, List.nodup_cons, List.disjoint_cons_right] at hnd
        simp (disch := omega) [relink, moveAssign, reset, load, store, setPrev, Heap.write_other,
          hseg, hhead, htail]
        refine ⟨?_, by simp [hL], by simp [hL], gA, gK, gI, gF, gC, ?_⟩
        · rw [hL]
          simp [hnd, hseg]
          simp (disch := omega) [Heap.write_other, hseg]
        · intro b hb
          have hb2 := hb
          rw [hL] at hb2
          simp at hb2
          simp (disch := omega) [Heap.write_other, gO b hb]
      · rcases List.eq_nil_or_concat ys1 with rfl | ⟨ym, t, rfl⟩
        · simp at hseg hhead htail
          simp [List.nodup_append, List.nodup_cons, List.disjoint_cons_right] at hnd
          simp (disch := omega) [relink, moveAssign, reset, load, store, setPrev, Heap.write_other,
            hseg, hhead, htail]
          refine ⟨?_, by simp [hL], by simp [hL], gA, gK, gI, gF, gC, ?_⟩
          · rw [hL]
            simp [hnd, hseg]
            simp (disch := omega) [Heap.write_other, hseg]
          · intro b hb
            have hb2 := hb
            rw [hL] at hb2
            simp at hb2
            simp (disch := omega) [Heap.write_other, gO b hb]
        · simp at hseg hhead htail
          simp [List.nodup_append, List.nodup_cons, List.disjoint_cons_right] at hnd
          simp (disch := omega) [relink, moveAssign, reset, load, store, setPrev, Heap.write_other,
            hseg, hhead, htail]
          refine ⟨?_, by simp [hL], by simp [hL], gA, gK, gI, gF, gC, ?_⟩
          · rw [hL]
            simp [hnd, hseg]
            simp (disch := omega) [Heap.write_other, hseg]
          · intro b hb
            have hb2 := hb
            rw [hL] at hb2
            simp at hb2
            simp (disch := omega) [Heap.write_other, gO b hb]

/-! ## `setNode` replaces the value, evicts around the node and moves it to the head -/

theorem setValue_spec {s : SimpleLRU} {xs ys : List Ent} {e : Ent} (v : String)
    (hs : Shape s (xs ++ e :: ys)) :
    ∃ s', setValue s e.addr v = some s' ∧ Shape s' (xs ++ ⟨e.addr, e.key, v⟩ :: ys) ∧
      s'._current_size = s._current_size ∧ s'._max_size = s._max_size ∧ s'.brk = s.brk := by
  have hseg := hs.seg
  have hnd := hs.nodupA
  simp at hseg
  simp [List.nodup_append, List.nodup_cons, List.disjoint_cons_right] at hnd
  simp [setValue, hseg]
  refine ⟨?_, ?_, ?_, ?_, ?_, ?_, ?_, ?_, ?_⟩
  · simp [hnd, hseg]
  · simpa using hs.head
  · simpa using hs.tail
  · simpa using hs.nodupA
  · simpa using hs.nodupK
  · simpa using hs.index
  · simpa using hs.fresh
  · simpa using hs.card
  · intro b hb
    have hb2 := hb
    simp at hb2
    have h0 := hs.owned b (by simpa using hb)
    simp (disch := omega) [Heap.write_other, h0]

theorem setNode_spec {s : SimpleLRU} {xs ys : List Ent} {e : Ent} {v : String}
    (hi : Inv s (xs ++ e :: ys)) (hfit : e.key.length + v.length ≤ s._max_size)
    (hsp : sumCost (xs ++ ys) + (e.key.length + v.length) < SIZE_MOD) :
    ∃ s' kept, setNode s e.addr v = some s' ∧ Inv s' (⟨e.addr, e.key, v⟩ :: kept) ∧
      Evicted s._max_size (e.key.length + v.length) (xs ++ ys) kept ∧
      s'._max_size = s._max_size ∧ s'.brk = s.brk := by
  have hseg := hi.shape.seg
  simp at hseg
  have hacct := hi.acct
  have hcap := hi.cap
  have hbud := hi.budget
  simp only [sumCost_append, sumCost_cons] at hsp hacct
  have hcur : szAdd s._current_size (szSub (strSize v) (strSize e.value)) =
      sumCost (xs ++ ys) + (e.key.length + v.length) := by
    rw [strSize_eq (by omega), strSize_eq (by omega), szAdd_szSub (by omega) (by omega) (by omega),
      sumCost_append]
    omega
  have hP : Shape
      { s with _current_size := szAdd s._current_size (szSub (strSize v) (strSize e.value)) }
      ((xs ++ ys).take xs.length ++ e :: (xs ++ ys).drop xs.length) := by
    simpa using hi.shape.size_irrel _
  have hlen : (xs ++ ys).length ≤ s.brk := by
    have := hi.shape.card
    simp only [List.length_append, List.length_cons] at this ⊢
    omega
  obtain ⟨s2, kept, hrun, hs2, hev, hc2, hm2, hb2⟩ :=
    freeSpaceLoop_spec (fun s l => Shape s (l.take xs.length ++ e :: l.drop xs.length))
      (some e.addr) (e.key.length + v.length) (victim_some_step e xs.length) (xs ++ ys)
      { s with _current_size := szAdd s._current_size (szSub (strSize v) (strSize e.value)) }
      s.brk hP hlen hcur (by rw [sumCost_append]; omega) hfit
  have hev' : Evicted s._max_size (e.key.length + v.length) (xs ++ ys) kept := hev
  simp only at hm2 hb2 hs2
  obtain ⟨s3, hval, hs3, hc3, hm3, hb3⟩ := setValue_spec v hs2
  obtain ⟨s4, hrel, hs4, hc4, hm4, hb4⟩ := relink_spec hs3
  rw [List.take_append_drop] at hs4
  have hle : sumCost kept + (e.key.length + v.length) ≤ s._max_size := by
    obtain ⟨_, _, h, _⟩ := hev'
    exact h
  refine ⟨s4, kept, ?_, ⟨hs4, ?_, ?_, ?_⟩, hev', by omega, by omega⟩
  · simp [setNode, hseg.2.1, freeSpace, hrun, hval, hrel]
  · rw [hc4, hc3, hc2, sumCost_cons]; simp only; omega
  · rw [hc4, hc3, hc2, hm4, hm3, hm2]; exact hle
  · rw [hm4, hm3, hm2]; exact hcap

/-! ## The public calls on a represented state -/

theorem Evicted.all {cap pend : Nat} {l kept : List Ent} (h : Evicted cap pend l kept)
    (hfit : sumCost l + pend ≤ cap) : kept = l := by
  obtain ⟨dropped, hl, -, hfirst⟩ := h
  cases dropped with
  | nil => simpa using hl.symm
  | cons d ds =>
    have := hfirst d ds rfl
    rw [hl] at hfit
    simp only [sumCost_append, sumCost_cons] at hfit
    omega

theorem argSize_eq {k v : String} (h : k.length + v.length < SIZE_MOD) :
    szAdd (strSize k) (strSize v) = k.length + v.length := by
  rw [strSize_eq (by omega), strSize_eq (by omega), szAdd_eq h]

theorem Put_oversized {s : SimpleLRU} {k v : String} (hkv : k.length + v.length < SIZE_MOD)
    (h : s._max_size < k.length + v.length) : Put s k v = some (false, s) := by
  simp [Put, argSize_eq hkv, h]

theorem Put_absent {s : SimpleLRU} {es : List Ent} {k v : String} (hi : Inv s es)
    (hsp : sumCost es + (k.length + v.length) < SIZE_MOD)
    (hfit : k.length + v.length ≤ s._max_size) (hk : k ∉ keysOf es) :
    ∃ s' kept, Put s k v = some (true, s') ∧ Inv s' (⟨s.brk, k, v⟩ :: kept) ∧
      Evicted s._max_size (k.length + v.length) es kept ∧ s'._max_size = s._max_size := by
  obtain ⟨s', kept, h1, h2, h3, h4⟩ := putAbsent_spec hi hk hfit hsp
  refine ⟨s', kept, ?_, h2, h3, h4⟩
  simp [Put, argSize_eq (show k.length + v.length < SIZE_MOD by omega), Nat.not_lt.mpr hfit,
    hi.shape.find_none.mpr hk, h1]

theorem Put_present {s : SimpleLRU} {xs ys : List Ent} {e : Ent} {v : String}
    (hi : Inv s (xs ++ e :: ys))
    (hsp : sumCost (xs ++ ys) + (e.key.length + v.length) < SIZE_MOD)
    (hfit : e.key.length + v.length ≤ s._max_size) :
    ∃ s' kept, Put s e.key v = some (true, s') ∧ Inv s' (⟨e.addr, e.key, v⟩ :: kept) ∧
      Evicted s._max_size (e.key.length + v.length) (xs ++ ys) kept ∧
      s'._max_size = s._max_size := by
  obtain ⟨s', kept, h1, h2, h3, h4, -⟩ := setNode_spec hi hfit hsp
  refine ⟨s', kept, ?_, h2, h3, h4⟩
  simp [Put, argSize_eq (show e.key.length + v.length < SIZE_MOD by omega), Nat.not_lt.mpr hfit,
    hi.shape.find_mem (show e ∈ xs ++ e :: ys by simp), h1]

theorem PutIfAbsent_oversized {s : SimpleLRU} {k v : String}
    (hkv : k.length + v.length < SIZE_MOD) (h : s._max_size < k.length + v.length) :
    PutIfAbsent s k v = some (false, s) := by
  simp [PutIfAbsent, argSize_eq hkv, h]

theorem PutIfAbsent_absent {s : SimpleLRU} {es : List Ent} {k v : String} (hi : Inv s es)
    (hsp : sumCost es + (k.length + v.length) < SIZE_MOD)
    (hfit : k.length + v.length ≤ s._max_size) (hk : k ∉ keysOf es) :
    ∃ s' kept, PutIfAbsent s k v = some (true, s') ∧ Inv s' (⟨s.brk, k, v⟩ :: kept) ∧
      Evicted s._max_size (k.length + v.length) es kept ∧ s'._max_size = s._max_size := by
  obtain ⟨s', kept, h1, h2, h3, h4⟩ := putAbsent_spec hi hk hfit hsp
  refine ⟨s', kept, ?_, h2, h3, h4⟩
  simp [PutIfAbsent, argSize_eq (show k.length + v.length < SIZE_MOD by omega),
    Nat.not_lt.mpr hfit, hi.shape.find_none.mpr hk, h1]

theorem PutIfAbsent_present {s : SimpleLRU} {es : List Ent} {k v : String} (hi : Inv s es)
    (hk : k ∈ keysOf es) : PutIfAbsent s k v = some (false, s) := by
  have hne : indexFind s._lru_index k ≠ none := fun h => hi.shape.find_none.mp h hk
  obtain ⟨a, ha⟩ := Option.ne_none_iff_exists'.mp hne
  unfold PutIfAbsent
  split
  · rfl
  · simp [ha]

theorem Set_oversized {s : SimpleLRU} {k v : String} (hkv : k.length + v.length < SIZE_MOD)
    (h : s._max_size < k.length + v.length) : Set s k v = some (false, s) := by
  simp [Set, argSize_eq hkv, h]

theorem Set_absent {s : SimpleLRU} {es : List Ent} {k v : String} (hi : Inv s es)
    (hk : k ∉ keysOf es) : Set s k v = some (false, s) := by
  unfold Set
  split
  · rfl
  · simp [hi.shape.find_none.mpr hk]

theorem Set_present {s : SimpleLRU} {xs ys : List Ent} {e : Ent} {v : String}
    (hi : Inv s (xs ++ e :: ys))
    (hsp : sumCost (xs ++ ys) + (e.key.length + v.length) < SIZE_MOD)
    (hfit : e.key.length + v.length ≤ s._max_size) :
    ∃ s' kept, Set s e.key v = some (true, s') ∧ Inv s' (⟨e.addr, e.key, v⟩ :: kept) ∧
      Evicted s._max_size (e.key.length + v.length) (xs ++ ys) kept ∧
      s'._max_size = s._max_size := by
  obtain ⟨s', kept, h1, h2, h3, h4, -⟩ := setNode_spec hi hfit hsp
  refine ⟨s', kept, ?_, h2, h3, h4⟩
  simp [Set, argSize_eq (show e.key.length + v.length < SIZE_MOD by omega), Nat.not_lt.mpr hfit,
    hi.shape.find_mem (show e ∈ xs ++ e :: ys by simp), h1]

theorem Delete_absent {s : SimpleLRU} {es : List Ent} {k : String} (hi : Inv s es)
    (hk : k ∉ keysOf es) : Delete s k = some (false, s) := by
  simp [Delete, hi.shape.find_none.mpr hk]

theorem Delete_present {s : SimpleLRU} {xs ys : List Ent} {e : Ent}
    (hi : Inv s (xs ++ e :: ys)) :
    ∃ s', Delete s e.key = some (true, s') ∧ Inv s' (xs ++ ys) ∧
      s'._max_size = s._max_size := by
  obtain ⟨s', h1, h2, h3, h4, -⟩ := deleteNode_spec hi.shape
  have hacct := hi.acct
  have hbud := hi.budget
  have hcap := hi.cap
  simp only [sumCost_append, sumCost_cons] at hacct
  rw [argSize_eq (by omega), szSub_eq (by omega) (by omega)] at h3
  refine ⟨s', ?_, ⟨h2, ?_, ?_, ?_⟩, h4⟩
  · simp [Delete, hi.shape.find_mem (show e ∈ xs ++ e :: ys by simp), h1]
  · rw [h3, sumCost_append]; omega
  · omega
  · omega

theorem Get_absent {s : SimpleLRU} {es : List Ent} {k : String} (out : String) (hi : Inv s es)
    (hk : k ∉ keysOf es) : Get s k out = some (false, out, s) := by
  simp [Get, hi.shape.find_none.mpr hk]

theorem Get_present {s : SimpleLRU} {xs ys : List Ent} {e : Ent} (out : String)
    (hi : Inv s (xs ++ e :: ys)) :
    ∃ s', Get s e.key out = some (true, e.value, s') ∧ Inv s' (e :: (xs ++ ys)) ∧
      s'._max_size = s._max_size := by
  have hacct := hi.acct
  have hbud := hi.budget
  have hcap := hi.cap
  have hseg := hi.shape.seg
  simp at hseg
  simp only [sumCost_append, sumCost_cons] at hacct
  have hfit : e.key.length + e.value.length ≤ s._max_size := by omega
  have hsp : sumCost (xs ++ ys) + (e.key.length + e.value.length) < SIZE_MOD := by
    rw [sumCost_append]; omega
  obtain ⟨s', kept, h1, h2, h3, h4, -⟩ := setNode_spec hi hfit hsp
  have hk : kept = xs ++ ys := h3.all (by rw [sumCost_append]; omega)
  rw [hk] at h2
  refine ⟨s', ?_, h2, h4⟩
  simp [Get, hi.shape.find_mem (show e ∈ xs ++ e :: ys by simp), hseg.2.1, h1]

theorem Inv_mk0 {max_size : Nat} {tail0 : Option Nat} (h : max_size < SIZE_MOD) :
    Inv (SimpleLRU.mk0 max_size tail0) [] :=
  ⟨⟨trivial, rfl, fun h => absurd rfl h, List.nodup_nil, List.nodup_nil, List.Perm.refl _, by simp, by simp,
      fun _ _ => rfl⟩,
    rfl, Nat.zero_le _, h⟩

theorem mem_keysOf_split {k : String} {es : List Ent} (h : k ∈ keysOf es) :
    ∃ xs e ys, es = xs ++ e :: ys ∧ e.key = k := by
  simp only [keysOf, List.mem_map] at h
  obtain ⟨e, he, hk⟩ := h
  obtain ⟨xs, ys, rfl⟩ := List.append_of_mem he
  exact ⟨xs, e, ys, rfl, hk⟩

theorem Evicted.keys_sublist {cap pend : Nat} {l kept : List Ent} (h : Evicted cap pend l kept) :
    (keysOf kept).Sublist (keysOf l) := by
  obtain ⟨dropped, hl, -, -⟩ := h
  rw [hl, keysOf_append]
  exact List.sublist_append_left _ _

theorem keysOf_remove_sublist (xs ys : List Ent) (e : Ent) :
    (keysOf (xs ++ ys)).Sublist (keysOf (xs ++ e :: ys)) := by
  rw [keysOf_append, keysOf_append, keysOf_cons]
  exact List.Sublist.append (List.Sublist.refl _) (List.sublist_cons_self _ _)

/-- Every public call on a represented state returns, and re-establishes the invariant. -/
theorem call_spec {s : SimpleLRU} {es : List Ent} {c : Call} (hi : Inv s es)
    (hsp : sumCost es + c.argBytes < SIZE_MOD) :
    ∃ r s' es', call s c = some (r, s') ∧ Inv s' es' ∧ s'._max_size = s._max_size ∧
      (r = false → s' = s ∧ es' = es) ∧
      (r = true → c.isAccess = true → ∃ ks, keysOf es' = c.key :: ks ∧ ks.Sublist (keysOf es)) ∧
      (r = true → c.isAccess = false → (keysOf es').Sublist (keysOf es)) := by
  cases c with
  | put k v =>
    simp only [Call.argBytes] at hsp
    by_cases hfit : k.length + v.length ≤ s._max_size
    · by_cases hk : k ∈ keysOf es
      · obtain ⟨xs, e, ys, rfl, rfl⟩ := mem_keysOf_split hk
        simp only [sumCost_append, sumCost_cons] at hsp
        obtain ⟨s', kept, h1, h2, h3, h4⟩ :=
          Put_present hi (by rw [sumCost_append]; omega) hfit
        exact ⟨true, s', _, h1, h2, h4, by simp, fun _ _ => ⟨keysOf kept, rfl,
          h3.keys_sublist.trans (keysOf_remove_sublist xs ys e)⟩, by simp [Call.isAccess]⟩
      · obtain ⟨s', kept, h1, h2, h3, h4⟩ := Put_absent hi hsp hfit hk
        exact ⟨true, s', _, h1, h2, h4, by simp, fun _ _ => ⟨keysOf kept, rfl, h3.keys_sublist⟩,
          by simp [Call.isAccess]⟩
    · exact ⟨false, s, es, Put_oversized (by omega) (by omega), hi, rfl, fun _ => ⟨rfl, rfl⟩,
        by simp, by simp⟩
  | putIfAbsent k v =>
    simp only [Call.argBytes] at hsp
    by_cases hk : k ∈ keysOf es
    · exact ⟨false, s, es, PutIfAbsent_present hi hk, hi, rfl, fun _ => ⟨rfl, rfl⟩,
        by simp, by simp⟩
    · by_cases hfit : k.length + v.length ≤ s._max_size
      · obtain ⟨s', kept, h1, h2, h3, h4⟩ := PutIfAbsent_absent hi hsp hfit hk
        exact ⟨true, s', _, h1, h2, h4, by simp, fun _ _ => ⟨keysOf kept, rfl, h3.keys_sublist⟩,
          by simp [Call.isAccess]⟩
      · exact ⟨false, s, es, PutIfAbsent_oversized (by omega) (by omega), hi, rfl,
          fun _ => ⟨rfl, rfl⟩, by simp, by simp⟩
  | set k v =>
    simp only [Call.argBytes] at hsp
    by_cases hfit : k.length + v.length ≤ s._max_size
    · by_cases hk : k ∈ keysOf es
      · obtain ⟨xs, e, ys, rfl, rfl⟩ := mem_keysOf_split hk
        simp only [sumCost_append, sumCost_cons] at hsp
        obtain ⟨s', kept, h1, h2, h3, h4⟩ :=
          Set_present hi (by rw [sumCost_append]; omega) hfit
        exact ⟨true, s', _, h1, h2, h4, by simp, fun _ _ => ⟨keysOf kept, rfl,
          h3.keys_sublist.trans (keysOf_remove_sublist xs ys e)⟩, by simp [Call.isAccess]⟩
      · exact ⟨false, s, es, Set_absent hi hk, hi, rfl, fun _ => ⟨rfl, rfl⟩, by simp, by simp⟩
    · exact ⟨false, s, es, Set_oversized (by omega) (by omega), hi, rfl, fun _ => ⟨rfl, rfl⟩,
        by simp, by simp⟩
  | delete k =>
    by_cases hk : k ∈ keysOf es
    · obtain ⟨xs, e, ys, rfl, rfl⟩ := mem_keysOf_split hk
      obtain ⟨s', h1, h2, h3⟩ := Delete_present hi
      exact ⟨true, s', _, h1, h2, h3, by simp, by simp [Call.isAccess],
        fun _ _ => keysOf_remove_sublist xs ys e⟩
    · exact ⟨false, s, es, Delete_absent hi hk, hi, rfl, fun _ => ⟨rfl, rfl⟩, by simp, by simp⟩
  | get k =>
    by_cases hk : k ∈ keysOf es
    · obtain ⟨xs, e, ys, rfl, rfl⟩ := mem_keysOf_split hk
      obtain ⟨s', h1, h2, h3⟩ := Get_present "" hi
      refine ⟨true, s', _, ?_, h2, h3, by simp, fun _ _ => ⟨keysOf (xs ++ ys), rfl,
        keysOf_remove_sublist xs ys e⟩, by simp [Call.isAccess]⟩
      simp [call, h1]
    · refine ⟨false, s, es, ?_, hi, rfl, fun _ => ⟨rfl, rfl⟩, by simp, by simp⟩
      simp [call, Get_absent "" hi hk]

theorem InSpace_nil (s : SimpleLRU) : InSpace s [] := rfl

theorem InSpace_cons {s : SimpleLRU} {c : Call} {cs : List Call} :
    InSpace s (c :: cs) ↔
      listBytes s + c.argBytes < SIZE_MOD ∧ ∀ r, call s c = some r → InSpace r.2 cs := by
  unfold InSpace
  simp only [inSpace, Bool.and_eq_true, decide_eq_true_eq]
  cases call s c <;> simp

theorem InSpace_take {cs : List Call} : ∀ {s : SimpleLRU} (n : Nat),
    InSpace s cs → InSpace s (cs.take n) := by
  induction cs with
  | nil => intro s n h; simpa using h
  | cons c cs ih =>
    intro s n h
    cases n with
    | zero => exact InSpace_nil s
    | succ n =>
      rw [List.take_succ_cons, InSpace_cons]
      rw [InSpace_cons] at h
      exact ⟨h.1, fun r hr => ih n (h.2 r hr)⟩

theorem InSpace_append {cs : List Call} {c : Call} : ∀ {s : SimpleLRU},
    InSpace s (cs ++ [c]) →
      InSpace s cs ∧ ∀ s', run s cs = some s' → listBytes s' + c.argBytes < SIZE_MOD := by
  induction cs with
  | nil =>
    intro s h
    rw [List.nil_append, InSpace_cons] at h
    refine ⟨InSpace_nil s, ?_⟩
    intro s' hs'
    simp only [run, Option.some.injEq] at hs'
    exact hs' ▸ h.1
  | cons d cs ih =>
    intro s h
    rw [List.cons_append, InSpace_cons] at h
    rw [InSpace_cons]
    refine ⟨⟨h.1, fun r hr => (ih (h.2 r hr)).1⟩, ?_⟩
    intro s' hs'
    simp only [run] at hs'
    cases hc : call s d with
    | none => simp [hc] at hs'
    | some r =>
      simp only [hc] at hs'
      exact (ih (h.2 r hc)).2 s' hs'

/-- A sequence of calls on a represented state runs to the end and keeps the invariant. -/
theorem run_spec {cs : List Call} : ∀ {s : SimpleLRU} {es : List Ent}, Inv s es →
    InSpace s cs → ∃ s' es', run s cs = some s' ∧ Inv s' es' ∧ s'._max_size = s._max_size := by
  induction cs with
  | nil => intro s es hi _; exact ⟨s, es, rfl, hi, rfl⟩
  | cons c cs ih =>
    intro s es hi hsp
    rw [InSpace_cons, listBytes_eq hi.shape] at hsp
    obtain ⟨r, s1, es1, hc, hi1, hm1, -⟩ := call_spec hi hsp.1
    obtain ⟨s', es', hr, hi', hm'⟩ := ih hi1 (hsp.2 _ hc)
    exact ⟨s', es', by simp [run, hc, hr], hi', by omega⟩

/-- The states reached from a new cache are represented, and the strings of a further call
fit the address space next to them. -/
theorem reach {max_size : Nat} {tail0 : Option Nat} {cs : List Call} (hmax : max_size < SIZE_MOD)
    (hsp : InSpace (SimpleLRU.mk0 max_size tail0) cs) :
    ∃ s es, run (SimpleLRU.mk0 max_size tail0) cs = some s ∧ Inv s es ∧ s._max_size = max_size := by
  obtain ⟨s, es, h1, h2, h3⟩ := run_spec (Inv_mk0 hmax) hsp
  exact ⟨s, es, h1, h2, h3⟩

theorem reach_call {max_size : Nat} {tail0 : Option Nat} {cs : List Call} {c : Call}
    (hmax : max_size < SIZE_MOD)
    (hsp : InSpace (SimpleLRU.mk0 max_size tail0) (cs ++ [c])) :
    ∃ s es, run (SimpleLRU.mk0 max_size tail0) cs = some s ∧ Inv s es ∧ s._max_size = max_size ∧
      sumCost es + c.argBytes < SIZE_MOD := by
  obtain ⟨h1, h2⟩ := InSpace_append hsp
  obtain ⟨s, es, hr, hi, hm⟩ := reach hmax h1
  exact ⟨s, es, hr, hi, hm, listBytes_eq hi.shape ▸ h2 s hr⟩

theorem walkNodes_Seg {h : Heap} {p : Option Nat} {es : List Ent} (hs : Seg h p es none)
    {fuel : Nat} (hf : es.length ≤ fuel) : walkNodes fuel h (hdOr es none) = addrs es := by
  induction es generalizing p fuel with
  | nil => cases fuel <;> simp [walkNodes]
  | cons x xs ih =>
    cases fuel with
    | zero => simp at hf
    | succ n =>
      simp only [List.length_cons, Nat.add_le_add_iff_right] at hf
      simp [walkNodes, hs.1, ih hs.2 hf]

theorem Shape.nodes_eq {s : SimpleLRU} {es : List Ent} (hs : Shape s es) :
    nodes s = addrs es := by
  unfold nodes
  rw [hs.head]
  exact walkNodes_Seg hs.seg hs.card

theorem Shape.keys_eq {s : SimpleLRU} {es : List Ent} (hs : Shape s es) :
    (entries s).map Prod.fst = keysOf es := by
  rw [hs.entries_eq]
  simp [keysOf, Ent.kv, Function.comp_def]

theorem count_keysOf {es : List Ent} (hnd : (keysOf es).Nodup) (k : String) :
    (keysOf es).count k = 1 ↔ k ∈ keysOf es := by
  constructor
  · intro h
    exact List.count_pos_iff.mp (by omega)
  · intro h
    exact List.count_eq_one_of_mem hnd h

theorem Put_result {s : SimpleLRU} {es : List Ent} {k v : String} (hi : Inv s es)
    (hsp : sumCost es + (k.length + v.length) < SIZE_MOD) :
    ∃ r s', Put s k v = some (r, s') ∧ (r = true ↔ k.length + v.length ≤ s._max_size) ∧
      (r = false → s' = s) := by
  obtain ⟨r, s', es', h1, -, -, h2, h3, -⟩ := call_spec (c := Call.put k v) hi hsp
  refine ⟨r, s', h1, ?_, fun h => (h2 h).1⟩
  by_cases hfit : k.length + v.length ≤ s._max_size
  · by_cases hk : k ∈ keysOf es
    · obtain ⟨xs, e, ys, rfl, rfl⟩ := mem_keysOf_split hk
      simp only [sumCost_append, sumCost_cons] at hsp
      obtain ⟨s2, kept, h4, -⟩ := Put_present (v := v) hi (by rw [sumCost_append]; omega) hfit
      simp only [call, h4, Option.some.injEq, Prod.mk.injEq] at h1
      simp [← h1.1, hfit]
    · obtain ⟨s2, kept, h4, -⟩ := Put_absent hi hsp hfit hk
      simp only [call, h4, Option.some.injEq, Prod.mk.injEq] at h1
      simp [← h1.1, hfit]
  · have h4 := Put_oversized (s := s) (k := k) (v := v) (by omega) (by omega)
    simp only [call, h4, Option.some.injEq, Prod.mk.injEq] at h1
    simp [← h1.1, hfit]

theorem PutIfAbsent_result {s : SimpleLRU} {es : List Ent} {k v : String} (hi : Inv s es)
    (hsp : sumCost es + (k.length + v.length) < SIZE_MOD) :
    ∃ r s', PutIfAbsent s k v = some (r, s') ∧
      (r = true ↔ k.length + v.length ≤ s._max_size ∧ k ∉ keysOf es) ∧ (r = false → s' = s) := by
  by_cases hk : k ∈ keysOf es
  · exact ⟨false, s, PutIfAbsent_present hi hk, by simp [hk], fun _ => rfl⟩
  · by_cases hfit : k.length + v.length ≤ s._max_size
    · obtain ⟨s2, kept, h4, -⟩ := PutIfAbsent_absent hi hsp hfit hk
      exact ⟨true, s2, h4, by simp [hk, hfit], by simp⟩
    · exact ⟨false, s, PutIfAbsent_oversized (by omega) (by omega), by simp [hfit],
        fun _ => rfl⟩

theorem Set_result {s : SimpleLRU} {es : List Ent} {k v : String} (hi : Inv s es)
    (hsp : sumCost es + (k.length + v.length) < SIZE_MOD) :
    ∃ r s', Set s k v = some (r, s') ∧
      (r = true ↔ k.length + v.length ≤ s._max_size ∧ k ∈ keysOf es) ∧ (r = false → s' = s) := by
  by_cases hk : k ∈ keysOf es
  · by_cases hfit : k.length + v.length ≤ s._max_size
    · obtain ⟨xs, e, ys, rfl, rfl⟩ := mem_keysOf_split hk
      simp only [sumCost_append, sumCost_cons] at hsp
      obtain ⟨s2, kept, h4, -⟩ := Set_present (v := v) hi (by rw [sumCost_append]; omega) hfit
      exact ⟨true, s2, h4, by simp [hk, hfit], by simp⟩
    · exact ⟨false, s, Set_oversized (by omega) (by omega), by simp [hfit], fun _ => rfl⟩
  · exact ⟨false, s, Set_absent hi hk, by simp [hk], fun _ => rfl⟩

theorem Delete_result {s : SimpleLRU} {es : List Ent} {k : String} (hi : Inv s es) :
    ∃ r s', Delete s k = some (r, s') ∧ (r = true ↔ k ∈ keysOf es) ∧ (r = false → s' = s) := by
  by_cases hk : k ∈ keysOf es
  · obtain ⟨xs, e, ys, rfl, rfl⟩ := mem_keysOf_split hk
    obtain ⟨s2, h4, -⟩ := Delete_present hi
    exact ⟨true, s2, h4, by simp [hk], by simp⟩
  · exact ⟨false, s, Delete_absent hi hk, by simp [hk], fun _ => rfl⟩

theorem Get_result {s : SimpleLRU} {es : List Ent} {k : String} (out : String) (hi : Inv s es) :
    ∃ r o s', Get s k out = some (r, o, s') ∧ (r = true ↔ k ∈ keysOf es) ∧
      (r = true → (k, o) ∈ es.map Ent.kv) ∧ (r = false → s' = s ∧ o = out) := by
  by_cases hk : k ∈ keysOf es
  · obtain ⟨xs, e, ys, rfl, rfl⟩ := mem_keysOf_split hk
    obtain ⟨s2, h4, -⟩ := Get_present out hi
    exact ⟨true, e.value, s2, h4, by simp [hk], by simp [Ent.kv], by simp⟩
  · exact ⟨false, out, s, Get_absent out hi hk, by simp [hk], by simp, fun _ => ⟨rfl, rfl⟩⟩

theorem sumCost_eq_map (es : List Ent) : sumCost es = ((es.map Ent.kv).map cost).sum := by
  simp [sumCost, Function.comp_def]

theorem Evicted.shortest {cap pend : Nat} {l kept : List Ent} (h : Evicted cap pend l kept) :
    ShortestSuffixRemoved cap pend (l.map Ent.kv) (kept.map Ent.kv) := by
  obtain ⟨dropped, hl, hfit, hfirst⟩ := h
  refine ⟨dropped.map Ent.kv, by simp [hl], ?_, ?_⟩
  · rw [← sumCost_eq_map]; omega
  · intro kept2 dropped2 heq hlen
    rw [hl, List.map_append, List.append_eq_append_iff] at heq
    rcases heq with ⟨a', h1, h2⟩ | ⟨c', h1, h2⟩
    · cases a' with
      | nil =>
        simp only [List.nil_append] at h2
        rw [h2] at hlen
        exact absurd hlen (Nat.lt_irrefl _)
      | cons x a'' =>
        cases dropped with
        | nil => simp at h2
        | cons d ds =>
          simp only [List.map_cons, List.cons_append, List.cons.injEq] at h2
          have := hfirst d ds rfl
          rw [h1, List.map_append, List.sum_append, ← sumCost_eq_map, List.map_cons,
            List.sum_cons, ← h2.1]
          simp only [cost, Ent.kv]
          omega
    · rw [h2, List.length_append] at hlen
      omega

theorem reach_state {max_size : Nat} {tail0 : Option Nat} {cs : List Call} {s : SimpleLRU}
    (hmax : max_size < SIZE_MOD) (hsp : InSpace (SimpleLRU.mk0 max_size tail0) cs)
    (hrun : run (SimpleLRU.mk0 max_size tail0) cs = some s) :
    ∃ es, Inv s es ∧ s._max_size = max_size := by
  obtain ⟨s1, es, h1, h2, h3⟩ := reach hmax hsp
  rw [hrun, Option.some.injEq] at h1
  subst h1
  exact ⟨es, h2, h3⟩

theorem sampleState_run : run (SimpleLRU.mk0 10 none) (sampleCalls.take 6) = some sampleState := by
  have hsome : (run (SimpleLRU.mk0 10 none) (sampleCalls.take 6)).isSome = true := by decide!
  unfold sampleState
  cases h : run (SimpleLRU.mk0 10 none) (sampleCalls.take 6) with
  | none => rw [h] at hsome; exact absurd hsome (by simp)
  | some s => rfl

theorem Shape.nodeKey_head {s : SimpleLRU} {es : List Ent} (hs : Shape s es) :
    nodeKey s s._lru_head = es.head?.map Ent.key := by
  rw [hs.head]
  cases es with
  | nil => rfl
  | cons e es => simp [nodeKey, hs.seg.1]

theorem Shape.nodeKey_tail {s : SimpleLRU} {es : List Ent} (hs : Shape s es) :
    nodeKey s s._lru_tail = es.getLast?.map Ent.key := by
  rcases List.eq_nil_or_concat es with rfl | ⟨es0, t, rfl⟩
  · cases h : s._lru_tail with
    | none => rfl
    | some a => simp [nodeKey, hs.owned a (by simp)]
  · rw [hs.tail (by simp)]
    have hseg := hs.seg
    simp at hseg
    simp [nodeKey, hseg.2]

theorem split_kv {es : List Ent} {pre post : List (String × String)} {k w : String}
    (h : es.map Ent.kv = pre ++ (k, w) :: post) :
    ∃ xs e ys, es = xs ++ e :: ys ∧ xs.map Ent.kv = pre ∧ e.key = k ∧ e.value = w ∧
      ys.map Ent.kv = post := by
  rw [List.map_eq_append_iff] at h
  obtain ⟨xs, r, rfl, hx, hr⟩ := h
  rw [List.map_eq_cons_iff] at hr
  obtain ⟨e, ys, rfl, he, hy⟩ := hr
  simp only [Ent.kv, Prod.mk.injEq] at he
  exact ⟨xs, e, ys, rfl, hx, he.1, he.2, hy⟩

theorem Recent.mono {m : String → Option Nat} {t : Nat} {ks : List String}
    (h : Recent m t ks) : Recent m (t + 1) ks :=
  ⟨fun k hk => by obtain ⟨u, h1, h2⟩ := h.1 k hk; exact ⟨u, h1, by omega⟩, h.2⟩

theorem Recent.of_sublist {m : String → Option Nat} {t : Nat} {ks ks' : List String}
    (h : Recent m t ks) (hsub : ks'.Sublist ks) : Recent m t ks' :=
  ⟨fun k hk => h.1 k (hsub.subset hk), h.2.sublist hsub⟩

theorem Recent.access {m : String → Option Nat} {t : Nat} {ks ks' : List String} {k : String}
    (h : Recent m t ks) (hsub : ks'.Sublist ks) (hk : k ∉ ks') :
    Recent (fun x => if x = k then some t else m x) (t + 1) (k :: ks') := by
  have hne : ∀ x ∈ ks', x ≠ k := fun x hx hxk => hk (hxk ▸ hx)
  constructor
  · intro x hx
    simp only [List.mem_cons] at hx
    rcases hx with rfl | hx
    · exact ⟨t, by simp, by omega⟩
    · obtain ⟨u, h1, h2⟩ := h.1 x (hsub.subset hx)
      exact ⟨u, by simp [hne x hx, h1], by omega⟩
  · rw [List.pairwise_cons]
    constructor
    · intro x hx
      obtain ⟨u, h1, h2⟩ := h.1 x (hsub.subset hx)
      exact ⟨t, u, by simp, by simp [hne x hx, h1], h2⟩
    · refine (h.2.sublist hsub).imp_of_mem ?_
      rintro a b ha hb ⟨t1, t2, h1, h2, h3⟩
      exact ⟨t1, t2, by simp [hne a ha, h1], by simp [hne b hb, h2], h3⟩

theorem accessLog_spec {cs : List Call} : ∀ {s : SimpleLRU} {es : List Ent} (t : Nat)
    (m : String → Option Nat), Inv s es → InSpace s cs → Recent m t (keysOf es) →
    ∃ s' es', run s cs = some s' ∧ Inv s' es' ∧
      Recent (accessLog s t cs m) (t + cs.length) (keysOf es') := by
  induction cs with
  | nil => intro s es t m hi _ hr; exact ⟨s, es, rfl, hi, hr⟩
  | cons c cs ih =>
    intro s es t m hi hsp hr
    rw [InSpace_cons, listBytes_eq hi.shape] at hsp
    obtain ⟨r, s1, es1, hc, hi1, -, hfalse, hacc, hdel⟩ := call_spec hi hsp.1
    have hgood : Recent (if r && c.isAccess then fun k => if k = c.key then some t else m k
        else m) (t + 1) (keysOf es1) := by
      cases r with
      | false =>
        obtain ⟨-, rfl⟩ := hfalse rfl
        simpa using hr.mono
      | true =>
        cases hia : c.isAccess with
        | false =>
          simpa using (hr.of_sublist (hdel rfl hia)).mono
        | true =>
          obtain ⟨ks, hks, hsub⟩ := hacc rfl hia
          have hnd := hi1.shape.nodupK
          rw [hks, List.nodup_cons] at hnd
          rw [hks]
          simpa using hr.access hsub hnd.1
    obtain ⟨s', es', hrun, hi', hr'⟩ := ih (t + 1) _ hi1 (hsp.2 _ hc) hgood
    refine ⟨s', es', by simp [run, hc, hrun], hi', ?_⟩
    have hlen : t + (c :: cs).length = t + 1 + cs.length := by
      simp only [List.length_cons]; omega
    rw [hlen]
    simpa [accessLog, hc] using hr'

theorem Inv.head_key {s : SimpleLRU} {e : Ent} {rest : List Ent} (hi : Inv s (e :: rest)) :
    nodeKey s s._lru_head = some e.key ∧ ∃ v rest', entries s = (e.key, v) :: rest' :=
  ⟨by rw [hi.shape.nodeKey_head]; rfl, e.value, rest.map Ent.kv, by
    rw [hi.shape.entries_eq]; rfl⟩

theorem Inv.tail_key {s : SimpleLRU} {e : Ent} {rest : List Ent} (hi : Inv s (e :: rest))
    (hne : rest ≠ []) :
    nodeKey s s._lru_tail = (rest.map Ent.kv).getLast?.map Prod.fst := by
  rw [hi.shape.nodeKey_tail]
  rcases List.eq_nil_or_concat rest with rfl | ⟨r0, t, rfl⟩
  · exact absurd rfl hne
  · have h1 : (e :: (r0 ++ [t])).getLast? = some t := by
      rw [← List.cons_append]; exact List.getLast?_concat _
    have h2 : (List.map Ent.kv r0 ++ [t.kv]).getLast? = some t.kv := List.getLast?_concat _
    simp [h1, h2, Ent.kv]

theorem Put_eq_Set_of_present {s : SimpleLRU} {xs ys : List Ent} {e : Ent} (v : String)
    (hi : Inv s (xs ++ e :: ys)) : Put s e.key v = Set s e.key v := by
  simp [Put, Set, hi.shape.find_mem (show e ∈ xs ++ e :: ys by simp)]

theorem szSub_self (n : Nat) : szSub n n = 0 := by
  unfold szSub
  simp only [SIZE_MOD] at *
  omega

theorem szAdd_zero {c : Nat} (h : c < SIZE_MOD) : szAdd c 0 = c := by
  unfold szAdd
  simpa using Nat.mod_eq_of_lt h

theorem Heap.write_self {h : Heap} {a : Nat} {c : Option lru_node} (hc : h a = c) :
    h.write a c = h := by
  funext b
  by_cases hb : b = a
  · subst hb; simp [hc]
  · simp [Heap.write, hb]

theorem freeSpaceLoop_fits {s : SimpleLRU} (fuel : Nat) (node : Option Nat)
    (h : s._current_size ≤ s._max_size) : freeSpaceLoop fuel s node = some s := by
  cases fuel <;> simp [freeSpaceLoop, Nat.not_lt.mpr h]

/-- On the head of the list `setNode` with the value already stored changes nothing at all. -/
theorem setNode_head {s : SimpleLRU} {e : Ent} {ys : List Ent} (hi : Inv s (e :: ys)) :
    setNode s e.addr e.value = some s := by
  have hcell := hi.shape.seg.1
  have hcur : s._current_size < SIZE_MOD := Nat.lt_of_le_of_lt hi.budget hi.cap
  have h1 : szAdd s._current_size (szSub (strSize e.value) (strSize e.value)) =
      s._current_size := by
    rw [szSub_self, szAdd_zero hcur]
  have h2 : s.heap.write e.addr (some ⟨e.key, e.value, none, hdOr ys none⟩) = s.heap :=
    Heap.write_self hcell
  simp only [setNode, hcell, h1, freeSpace, freeSpaceLoop_fits _ _ hi.budget, setValue,
    Option.map_some', h2, relink]

theorem Get_head {s : SimpleLRU} {e : Ent} {ys : List Ent} (out : String)
    (hi : Inv s (e :: ys)) : Get s e.key out = some (true, e.value, s) := by
  have hcell := hi.shape.seg.1
  have hfind := hi.shape.find_mem (show e ∈ e :: ys by simp)
  simp [Get, hfind, hcell, setNode_head hi]

theorem Put_eq_putIfAbsentElseSet (s : SimpleLRU) (k v : String) :
    Put s k v = putIfAbsentElseSet s k v := by
  unfold putIfAbsentElseSet PutIfAbsent Put Set
  by_cases hover : szAdd (strSize k) (strSize v) > s._max_size
  · simp [hover]
  · cases hfind : indexFind s._lru_index k with
    | none =>
      cases hput : putAbsent s k v with
      | none => simp [hover, hput]
      | some s1 => simp [hover, hput]
    | some a =>
      cases hset : setNode s a v with
      | none => simp [hover, hfind, hset]
      | some s1 => simp [hover, hfind, hset]

theorem keysOf_remove_not_mem {xs ys : List Ent} {e : Ent}
    (h : (keysOf (xs ++ e :: ys)).Nodup) : e.key ∉ keysOf (xs ++ ys) := by
  simp only [keysOf_append, keysOf_cons, List.nodup_append, List.nodup_cons, List.mem_append,
    List.Disjoint, List.mem_cons] at h ⊢
  rintro (hx | hy)
  · exact h.2.2 hx (Or.inl rfl)
  · exact h.2.1.1 hy

theorem str_empty_of_length {x : String} (h : x.length = 0) : x = "" := by
  cases x with
  | mk d =>
    simp only [String.length, List.length_eq_zero] at h
    subst h
    rfl

theorem cost_zero {e : String × String} (h : cost e = 0) : e = ("", "") := by
  obtain ⟨k, v⟩ := e
  simp only [cost] at h
  rw [str_empty_of_length (show k.length = 0 by omega),
    str_empty_of_length (show v.length = 0 by omega)]

theorem sumCost_zero {l : List Ent} (h : sumCost l = 0) : ∀ x ∈ l.map Ent.kv, cost x = 0 := by
  induction l with
  | nil => simp
  | cons e es ih =>
    simp only [sumCost_cons] at h
    intro x hx
    simp only [List.map_cons, List.mem_cons] at hx
    rcases hx with rfl | hx
    · simp only [cost, Ent.kv]; omega
    · exact ih (by omega) x hx

theorem Evicted.exact {cap : Nat} {l kept : List Ent} (h : Evicted cap cap l kept) :
    kept.map Ent.kv = (l.map Ent.kv).takeWhile (fun e => decide (cost e = 0)) := by
  obtain ⟨dropped, hl, hfit, hfirst⟩ := h
  have hz : ∀ x ∈ kept.map Ent.kv, (fun e => decide (cost e = 0)) x = true := by
    intro x hx
    simpa using sumCost_zero (by omega) x hx
  rw [hl, List.map_append, List.takeWhile_append_of_pos hz]
  cases dropped with
  | nil => simp
  | cons d ds =>
    have hd := hfirst d ds rfl
    have h0 : decide (cost d.kv = 0) = false := by
      simp only [cost, Ent.kv, decide_eq_false_iff_not]; omega
    simp [List.takeWhile_cons, h0]

theorem filter_key_ne {l : List Ent} {k : String} (h : k ∉ keysOf l) :
    (l.map Ent.kv).filter (fun x => decide (x.1 ≠ k)) = l.map Ent.kv := by
  rw [List.filter_eq_self]
  intro x hx
  simp only [List.mem_map] at hx
  obtain ⟨e, he, rfl⟩ := hx
  have : e.key ≠ k := fun hh => h (hh ▸ mem_keysOf_of_mem he)
  simpa [Ent.kv] using this

theorem filter_key_remove {xs ys : List Ent} {e : Ent} (h : (keysOf (xs ++ e :: ys)).Nodup) :
    ((xs ++ e :: ys).map Ent.kv).filter (fun x => decide (x.1 ≠ e.key)) =
      (xs ++ ys).map Ent.kv := by
  simp only [keysOf_append, keysOf_cons, List.nodup_append, List.nodup_cons, List.Disjoint,
    List.mem_cons] at h
  have h1 : e.key ∉ keysOf xs := fun hh => h.2.2 hh (Or.inl rfl)
  have h2 : e.key ∉ keysOf ys := h.2.1.1
  rw [List.map_append, List.map_cons, List.filter_append, List.filter_cons, filter_key_ne h1,
    filter_key_ne h2, List.map_append]
  simp [Ent.kv]

theorem mem_addrs_split {a : Nat} {es : List Ent} (h : a ∈ addrs es) :
    ∃ xs e ys, es = xs ++ e :: ys ∧ e.addr = a := by
  simp only [addrs, List.mem_map] at h
  obtain ⟨e, he, ha⟩ := h
  obtain ⟨xs, ys, rfl⟩ := List.append_of_mem he
  exact ⟨xs, e, ys, rfl, ha⟩

theorem addrs_head (es : List Ent) : (addrs es).head? = hdOr es none := by
  cases es <;> rfl

theorem addrs_getLast (es : List Ent) : (addrs es).getLast? = lastOr es none := by
  rcases List.eq_nil_or_concat es with rfl | ⟨r0, t, rfl⟩
  · rfl
  · simp only [List.concat_eq_append, addrs_append, addrs_cons, addrs_nil, lastOr_append,
      lastOr_cons, lastOr_nil]
    exact List.getLast?_concat _

theorem Shape.cell {s : SimpleLRU} {xs ys : List Ent} {e : Ent} (hs : Shape s (xs ++ e :: ys)) :
    s.heap e.addr = some ⟨e.key, e.value, lastOr xs none, hdOr ys none⟩ := by
  have := hs.seg
  simp at this
  exact this.2.1

theorem freeSpaceVictims_spec (P : SimpleLRU → List Ent → Prop) (node : Option Nat) (pend : Nat)
    (hstep : ∀ s l t, P s (l ++ [t]) → ∃ v s1, victim s node = some v ∧
      deleteNode s v = some s1 ∧ P s1 l ∧
      s1._current_size = szSub s._current_size (szAdd (strSize t.key) (strSize t.value)) ∧
      s1._max_size = s._max_size ∧ s1.brk = s.brk) :
    ∀ (l : List Ent) (s : SimpleLRU) (fuel : Nat), P s l → l.length ≤ fuel →
      s._current_size = sumCost l + pend → sumCost l + pend < SIZE_MOD →
      pend ≤ s._max_size →
      (∀ p ∈ freeSpaceVictims fuel s node, p ≠ none) ∧
        (freeSpaceVictims fuel s node).length ≤ l.length := by
  intro l
  induction l using List.reverseRecOn with
  | nil =>
    intro s fuel hP _ hcur _ hpend
    have hle : ¬ s._current_size > s._max_size := by
      rw [hcur]; simp only [sumCost_nil]; omega
    cases fuel <;> simp [freeSpaceVictims, hle]
  | append_singleton l t ih =>
    intro s fuel hP hfuel hcur hlt hpend
    by_cases hgt : s._current_size > s._max_size
    · obtain ⟨v, s1, hv, hdel, hP1, hc1, hm1, hb1⟩ := hstep s l t hP
      simp only [sumCost_append, sumCost_cons, sumCost_nil, Nat.add_zero] at hcur hlt
      rw [argSize_eq (by omega), szSub_eq (by omega) (by omega)] at hc1
      have hvn : v ≠ none := by
        rintro rfl
        simp [deleteNode] at hdel
      cases fuel with
      | zero => simp at hfuel
      | succ n =>
        simp only [List.length_append, List.length_cons, List.length_nil] at hfuel
        obtain ⟨h1, h2⟩ := ih s1 n hP1 (by omega) (by omega) (by omega) (by omega)
        simp only [freeSpaceVictims, hgt, if_true, hv, hdel, List.mem_cons, List.length_cons,
          List.length_append, List.length_nil]
        refine ⟨?_, by omega⟩
        rintro p (rfl | hp)
        · exact hvn
        · exact h1 p hp
    · cases fuel <;> simp [freeSpaceVictims, hgt]

/-- The body of `putAbsent` starts with the size update and the call `freeSpace()`. -/
theorem putAbsent_some {s s' : SimpleLRU} {k v : String} (h : putAbsent s k v = some s') :
    ∃ s2, freeSpace (withSize s (szAdd s._current_size (szAdd (strSize k) (strSize v))))
      none = some s2 := by
  rcases Option.eq_none_or_eq_some
    (freeSpace (withSize s (szAdd s._current_size (szAdd (strSize k) (strSize v)))) none)
    with h0 | ⟨s2, h2⟩
  · simp only [withSize] at h0
    simp [putAbsent, h0] at h
  · exact ⟨s2, h2⟩

/-- The body of `setNode` starts with the size update and the call `freeSpace(node)`. -/
theorem setNode_some {s s' : SimpleLRU} {a : Nat} {nd : lru_node} {v : String}
    (hnd : s.heap a = some nd) (h : setNode s a v = some s') :
    ∃ s2, freeSpace (withSize s (szAdd s._current_size (szSub (strSize v) (strSize nd.value))))
      (some a) = some s2 := by
  rcases Option.eq_none_or_eq_some
    (freeSpace (withSize s (szAdd s._current_size (szSub (strSize v) (strSize nd.value))))
      (some a)) with h0 | ⟨s2, h2⟩
  · simp only [withSize] at h0
    simp [setNode, hnd, h0] at h
  · exact ⟨s2, h2⟩

theorem store_size {s s' : SimpleLRU} {p : UPtr} {v : Option Nat} (h : store s p v = some s') :
    s'._current_size = s._current_size := by
  cases p with
  | head => simp only [store, Option.some.injEq] at h; rw [← h]
  | next a =>
    simp only [store] at h
    cases hc : s.heap a with
    | none => simp [hc] at h
    | some nd => simp only [hc, Option.map_some', Option.some.injEq] at h; rw [← h]

theorem reset_size {s s' : SimpleLRU} {p : UPtr} {v : Option Nat} (h : reset s p v = some s') :
    s'._current_size = s._current_size := by
  unfold reset at h
  split at h
  · exact absurd h (by simp)
  · split at h
    · exact absurd h (by simp)
    · next s1 h1 =>
      split at h
      · exact absurd h (by simp)
      · simp only [Option.some.injEq] at h
        have hs1 := store_size h1
        rw [← h]
        exact hs1

theorem moveAssign_size {s s' : SimpleLRU} {p q : UPtr} (h : moveAssign s p q = some s') :
    s'._current_size = s._current_size := by
  unfold moveAssign at h
  split at h
  · exact absurd h (by simp)
  · split at h
    · exact absurd h (by simp)
    · next s1 h1 => rw [reset_size h, store_size h1]

theorem setPrev_size {s s' : SimpleLRU} {a p : Option Nat} (h : setPrev s a p = some s') :
    s'._current_size = s._current_size := by
  cases a with
  | none => simp [setPrev] at h
  | some a =>
    simp only [setPrev] at h
    cases hc : s.heap a with
    | none => simp [hc] at h
    | some nd => simp only [hc, Option.map_some', Option.some.injEq] at h; rw [← h]

/-- The size that `deleteNode` leaves is the one its first statement computes. -/
theorem deleteNode_size {s s' : SimpleLRU} {a : Nat} {nd : lru_node} (hnd : s.heap a = some nd)
    (h : deleteNode s (some a) = some s') :
    s'._current_size = szSub s._current_size (szAdd (strSize nd.key) (strSize nd.value)) := by
  simp only [deleteNode, hnd] at h
  split at h
  · exact reset_size h
  · exact reset_size h
  · split at h
    · exact absurd h (by simp)
    · next s3 h3 => rw [setPrev_size h, moveAssign_size h3]
  · split at h
    · exact absurd h (by simp)
    · next s3 h3 => rw [moveAssign_size h, setPrev_size h3]

/-- Deleting the only node of the list sets `_lru_tail` to null (`_lru_tail = nullptr` in the
branch `!next && !prev` of `deleteNode`). -/
theorem deleteNode_sole {s s1 : SimpleLRU} {e : Ent} (hs : Shape s [e])
    (h : deleteNode s (some e.addr) = some s1) : s1._lru_tail = none := by
  have hb : 0 < s.brk := Nat.lt_of_le_of_lt (Nat.zero_le _) (hs.fresh e.addr (by simp))
  have hseg := hs.seg
  have hhead := hs.head
  simp at hseg hhead
  simp [deleteNode, hseg, load, store, reset, Heap.write, hb, destroy_some, hhead] at h
  rw [← h]

theorem cost_le_sum {e : String × String} {l : List (String × String)} (h : e ∈ l) :
    cost e ≤ (l.map cost).sum := by
  induction l with
  | nil => simp at h
  | cons x xs ih =>
    simp only [List.mem_cons] at h
    simp only [List.map_cons, List.sum_cons]
    rcases h with rfl | h
    · omega
    · have := ih h; omega

theorem walk_mem {fuel : Nat} {h : Heap} {p : Option Nat} {a : Nat} {nd : lru_node}
    (ha : a ∈ walkNodes fuel h p) (hnd : h a = some nd) : (nd.key, nd.value) ∈ walk fuel h p := by
  induction fuel generalizing p with
  | zero => simp [walkNodes] at ha
  | succ n ih =>
    cases p with
    | none => simp [walkNodes] at ha
    | some b =>
      cases hb : h b with
      | none => simp [walkNodes, hb] at ha
      | some nb =>
        simp only [walkNodes, hb, List.mem_cons] at ha
        simp only [walk, hb, List.mem_cons]
        rcases ha with rfl | ha
        · rw [hnd, Option.some.injEq] at hb
          exact Or.inl (by rw [hb])
        · exact Or.inr (ih ha)

/-- Link integrity of a represented state. The head is null exactly when the list is empty,
and `head.prev` is null; following `next` from the head visits pairwise distinct nodes, exactly
the nodes that exist in memory, which are also the nodes the index refers to; `next.prev` and
`prev.next` lead back to every node of the list. The tail pointer is the last node visited,
with a null `next`, whenever the list is not empty; nothing is known of it on an empty list. -/
theorem Shape.links {s : SimpleLRU} {es : List Ent} (hs : Shape s es) :
    (s._lru_head = none ↔ nodes s = []) ∧
      (∀ a, s._lru_head = some a → ∃ nd, s.heap a = some nd ∧ nd.prev = none) ∧
      (nodes s ≠ [] → (nodes s).getLast? = s._lru_tail ∧
        ∃ a nd, s._lru_tail = some a ∧ s.heap a = some nd ∧ nd.next = none) ∧
      (nodes s).head? = s._lru_head ∧ (nodes s).Nodup ∧
      (∀ a, (s.heap a).isSome ↔ a ∈ nodes s) ∧
      (s._lru_index.map Prod.snd).Perm (nodes s) ∧
      (∀ a nd b, a ∈ nodes s → s.heap a = some nd → nd.next = some b →
        ∃ nb, s.heap b = some nb ∧ nb.prev = some a) ∧
      (∀ a nd b, a ∈ nodes s → s.heap a = some nd → nd.prev = some b →
        ∃ nb, s.heap b = some nb ∧ nb.next = some a) := by
  rw [hs.nodes_eq]
  refine ⟨?_, ?_, ?_, ?_, hs.nodupA, ?_, ?_, ?_, ?_⟩
  · rw [hs.head]
    cases es <;> simp
  · intro a ha
    rw [hs.head] at ha
    cases es with
    | nil => simp at ha
    | cons e rest =>
      simp only [hdOr_cons, Option.some.injEq] at ha
      exact ⟨_, ha ▸ hs.seg.1, rfl⟩
  · intro hne
    have hne2 : es ≠ [] := by
      intro h0
      rw [h0] at hne
      simp at hne
    have htail := hs.tail hne2
    refine ⟨by rw [addrs_getLast, htail], ?_⟩
    rcases List.eq_nil_or_concat es with rfl | ⟨r0, t, rfl⟩
    · exact absurd rfl hne2
    · have hc := @Shape.cell s r0 [] t (by simpa using hs)
      exact ⟨t.addr, _, by simpa using htail, hc, rfl⟩
  · rw [addrs_head, hs.head]
  · intro a
    constructor
    · intro ha
      by_contra hna
      rw [hs.owned a hna] at ha
      simp at ha
    · intro ha
      obtain ⟨xs, e, ys, rfl, rfl⟩ := mem_addrs_split ha
      rw [hs.cell]; rfl
  · have := hs.index.map Prod.snd
    simpa [idxOf, addrs, Function.comp_def] using this
  · intro a nd b ha hnd hb
    obtain ⟨xs, e, ys, rfl, rfl⟩ := mem_addrs_split ha
    rw [hs.cell, Option.some.injEq] at hnd
    subst hnd
    cases ys with
    | nil => simp at hb
    | cons y ys1 =>
      simp only [hdOr_cons, Option.some.injEq] at hb
      have hc := @Shape.cell s (xs ++ [e]) ys1 y (by simpa using hs)
      exact ⟨_, hb ▸ hc, by simp⟩
  · intro a nd b ha hnd hb
    obtain ⟨xs, e, ys, rfl, rfl⟩ := mem_addrs_split ha
    rw [hs.cell, Option.some.injEq] at hnd
    subst hnd
    rcases List.eq_nil_or_concat xs with rfl | ⟨r0, p, rfl⟩
    · simp at hb
    · simp only [List.concat_eq_append, lastOr_append, lastOr_cons, lastOr_nil,
        Option.some.injEq] at hb
      have hc := @Shape.cell s r0 (e :: ys) p (by simpa using hs)
      exact ⟨_, hb ▸ hc, by simp⟩

/-! ## The claims of the specification -/

/-- C1 (budget invariant): after every call of a sequence of public calls on a new cache of
any `max_size`, the call has returned and `current_size ≤ max_size`. -/
theorem C1_budget (max_size : Nat) (tail0 : Option Nat) (cs : List Call) (n : Nat)
    (hmax : max_size < SIZE_MOD)
    (hsp : InSpace (SimpleLRU.mk0 max_size tail0) cs) :
    ∃ s, run (SimpleLRU.mk0 max_size tail0) (cs.take n) = some s ∧ s._max_size = max_size ∧
      s._current_size ≤ s._max_size := by
  obtain ⟨s, es, hr, hi, hm⟩ := reach hmax (InSpace_take n hsp)
  exact ⟨s, hr, hm, hi.budget⟩

theorem C1_budget_witness :
    ∃ s, run (SimpleLRU.mk0 10 none) (sampleCalls.take 6) = some s ∧ s._max_size = 10 ∧
      s._current_size ≤ s._max_size :=
  C1_budget 10 none sampleCalls 6 (by decide) (by decide!)

/-- C2 (accounting invariant): after every call of a sequence of public calls on a new cache,
`current_size` is the sum of `len(key) + len(value)` over the entries of the recency list. -/
theorem C2_accounting (max_size : Nat) (tail0 : Option Nat) (cs : List Call) (n : Nat)
    (hmax : max_size < SIZE_MOD)
    (hsp : InSpace (SimpleLRU.mk0 max_size tail0) cs) :
    ∃ s, run (SimpleLRU.mk0 max_size tail0) (cs.take n) = some s ∧
      s._current_size = ((entries s).map (fun e => e.1.length + e.2.length)).sum := by
  obtain ⟨s, es, hr, hi, hm⟩ := reach hmax (InSpace_take n hsp)
  refine ⟨s, hr, ?_⟩
  rw [hi.acct, hi.shape.entries_eq]
  simp [sumCost, cost, Ent.kv, Function.comp_def]

theorem C2_accounting_witness :
    ∃ s, run (SimpleLRU.mk0 10 none) (sampleCalls.take 9) = some s ∧
      s._current_size = ((entries s).map (fun e => e.1.length + e.2.length)).sum :=
  C2_accounting 10 none sampleCalls 9 (by decide) (by decide!)

/-- C3 (index/list consistency): after every call of a sequence of public calls on a new
cache, a key is in the index iff it is the key of exactly one entry of the recency list; the
keys of the list are pairwise distinct, the index maps a key to a node of the list that
carries this key, and the index has as many entries as the list. -/
theorem C3_index_consistency (max_size : Nat) (tail0 : Option Nat) (cs : List Call) (n : Nat)
    (hmax : max_size < SIZE_MOD) (hsp : InSpace (SimpleLRU.mk0 max_size tail0) cs) :
    ∃ s, run (SimpleLRU.mk0 max_size tail0) (cs.take n) = some s ∧
      (∀ k, (indexFind s._lru_index k).isSome ↔ ((entries s).map Prod.fst).count k = 1) ∧
      ((entries s).map Prod.fst).Nodup ∧
      (∀ k a, indexFind s._lru_index k = some a → a ∈ nodes s ∧ nodeKey s (some a) = some k) ∧
      s._lru_index.length = (entries s).length := by
  obtain ⟨s, es, hr, hi, hm⟩ := reach hmax (InSpace_take n hsp)
  have hs := hi.shape
  refine ⟨s, hr, ?_, ?_, ?_, ?_⟩
  · intro k
    rw [hs.keys_eq, count_keysOf hs.nodupK, ← not_iff_not, ← hs.find_none]
    cases indexFind s._lru_index k <;> simp
  · rw [hs.keys_eq]; exact hs.nodupK
  · intro k a h
    obtain ⟨xs, e, ys, rfl, rfl, rfl⟩ := hs.find_some h
    have hseg := hs.seg
    simp at hseg
    rw [hs.nodes_eq]
    exact ⟨by simp, by simp [nodeKey, hseg.2.1]⟩
  · rw [hs.index.length_eq, hs.entries_eq]
    simp [idxOf]

theorem C3_index_consistency_witness :
    ∃ s, run (SimpleLRU.mk0 10 none) (sampleCalls.take 7) = some s ∧
      (∀ k, (indexFind s._lru_index k).isSome ↔ ((entries s).map Prod.fst).count k = 1) ∧
      ((entries s).map Prod.fst).Nodup ∧
      (∀ k a, indexFind s._lru_index k = some a → a ∈ nodes s ∧ nodeKey s (some a) = some k) ∧
      s._lru_index.length = (entries s).length :=
  C3_index_consistency 10 none sampleCalls 7 (by decide) (by decide!)

/-- C4 (result values): in a state reached by public calls, `Put` returns true iff the request
fits `max_size`; `PutIfAbsent` iff it fits and the key is absent; `Set` iff it fits and the key
is present; `Delete` iff the key is present; `Get` iff the key is present, and then the
out-value is the value stored for the key. -/
theorem C4_result_values (max_size : Nat) (tail0 : Option Nat) (cs : List Call) (k v out : String)
    (hmax : max_size < SIZE_MOD)
    (hsp : InSpace (SimpleLRU.mk0 max_size tail0) (cs ++ [Call.put k v])) :
    ∃ s, run (SimpleLRU.mk0 max_size tail0) cs = some s ∧
      (∃ r s', Put s k v = some (r, s') ∧ (r = true ↔ k.length + v.length ≤ s._max_size)) ∧
      (∃ r s', PutIfAbsent s k v = some (r, s') ∧
        (r = true ↔ k.length + v.length ≤ s._max_size ∧ k ∉ (entries s).map Prod.fst)) ∧
      (∃ r s', Set s k v = some (r, s') ∧
        (r = true ↔ k.length + v.length ≤ s._max_size ∧ k ∈ (entries s).map Prod.fst)) ∧
      (∃ r s', Delete s k = some (r, s') ∧ (r = true ↔ k ∈ (entries s).map Prod.fst)) ∧
      (∃ r o s', Get s k out = some (r, o, s') ∧ (r = true ↔ k ∈ (entries s).map Prod.fst) ∧
        (r = true → (k, o) ∈ entries s)) := by
  obtain ⟨s, es, hr, hi, hm, hb⟩ := reach_call hmax hsp
  simp only [Call.argBytes] at hb
  refine ⟨s, hr, ?_⟩
  rw [hi.shape.keys_eq, hi.shape.entries_eq]
  refine ⟨?_, ?_, ?_, ?_, ?_⟩
  · obtain ⟨r, s', h1, h2, -⟩ := Put_result hi hb
    exact ⟨r, s', h1, h2⟩
  · obtain ⟨r, s', h1, h2, -⟩ := PutIfAbsent_result hi hb
    exact ⟨r, s', h1, h2⟩
  · obtain ⟨r, s', h1, h2, -⟩ := Set_result hi hb
    exact ⟨r, s', h1, h2⟩
  · obtain ⟨r, s', h1, h2, -⟩ := Delete_result (k := k) hi
    exact ⟨r, s', h1, h2⟩
  · obtain ⟨r, o, s', h1, h2, h3, -⟩ := Get_result (k := k) out hi
    exact ⟨r, o, s', h1, h2, h3⟩

theorem C4_result_values_witness :
    ∃ s, run (SimpleLRU.mk0 10 none) (sampleCalls.take 6) = some s ∧
      (∃ r s', Put s "b" "new" = some (r, s') ∧
        (r = true ↔ "b".length + "new".length ≤ s._max_size)) ∧
      (∃ r s', PutIfAbsent s "b" "new" = some (r, s') ∧
        (r = true ↔ "b".length + "new".length ≤ s._max_size ∧ "b" ∉ (entries s).map Prod.fst)) ∧
      (∃ r s', Set s "b" "new" = some (r, s') ∧
        (r = true ↔ "b".length + "new".length ≤ s._max_size ∧ "b" ∈ (entries s).map Prod.fst)) ∧
      (∃ r s', Delete s "b" = some (r, s') ∧ (r = true ↔ "b" ∈ (entries s).map Prod.fst)) ∧
      (∃ r o s', Get s "b" "" = some (r, o, s') ∧ (r = true ↔ "b" ∈ (entries s).map Prod.fst) ∧
        (r = true → ("b", o) ∈ entries s)) :=
  C4_result_values 10 none (sampleCalls.take 6) "b" "new" "" (by decide) (by decide!)

/-- C5 (failure atomicity): in a state reached by public calls, every call of `Put`,
`PutIfAbsent`, `Set`, `Delete` or `Get` returns, and when it returns false the state after the
call is the state before it (for `Get`, the caller's string is untouched as well). An
oversized request, an absent key for `Set`, `Delete`, `Get` and a present key for
`PutIfAbsent` make the call return false. -/
theorem C5_failure_atomicity (max_size : Nat) (tail0 : Option Nat) (cs : List Call)
    (k v out : String)
    (hmax : max_size < SIZE_MOD)
    (hsp : InSpace (SimpleLRU.mk0 max_size tail0) (cs ++ [Call.put k v])) :
    ∃ s, run (SimpleLRU.mk0 max_size tail0) cs = some s ∧
      (∃ r s', Put s k v = some (r, s') ∧ (r = false → s' = s) ∧
        (s._max_size < k.length + v.length → r = false)) ∧
      (∃ r s', PutIfAbsent s k v = some (r, s') ∧ (r = false → s' = s) ∧
        (s._max_size < k.length + v.length ∨ k ∈ (entries s).map Prod.fst → r = false)) ∧
      (∃ r s', Set s k v = some (r, s') ∧ (r = false → s' = s) ∧
        (s._max_size < k.length + v.length ∨ k ∉ (entries s).map Prod.fst → r = false)) ∧
      (∃ r s', Delete s k = some (r, s') ∧ (r = false → s' = s) ∧
        (k ∉ (entries s).map Prod.fst → r = false)) ∧
      (∃ r o s', Get s k out = some (r, o, s') ∧ (r = false → s' = s ∧ o = out) ∧
        (k ∉ (entries s).map Prod.fst → r = false)) := by
  obtain ⟨s, es, hr, hi, hm, hb⟩ := reach_call hmax hsp
  simp only [Call.argBytes] at hb
  refine ⟨s, hr, ?_⟩
  rw [hi.shape.keys_eq]
  refine ⟨?_, ?_, ?_, ?_, ?_⟩
  · obtain ⟨r, s', h1, h2, h3⟩ := Put_result hi hb
    refine ⟨r, s', h1, h3, fun h => ?_⟩
    cases r
    · rfl
    · exact absurd (h2.mp rfl) (by omega)
  · obtain ⟨r, s', h1, h2, h3⟩ := PutIfAbsent_result hi hb
    refine ⟨r, s', h1, h3, fun h => ?_⟩
    cases r
    · rfl
    · have := h2.mp rfl
      rcases h with h | h
      · omega
      · exact absurd h this.2
  · obtain ⟨r, s', h1, h2, h3⟩ := Set_result hi hb
    refine ⟨r, s', h1, h3, fun h => ?_⟩
    cases r
    · rfl
    · have := h2.mp rfl
      rcases h with h | h
      · omega
      · exact absurd this.2 h
  · obtain ⟨r, s', h1, h2, h3⟩ := Delete_result (k := k) hi
    refine ⟨r, s', h1, h3, fun h => ?_⟩
    cases r
    · rfl
    · exact absurd (h2.mp rfl) h
  · obtain ⟨r, o, s', h1, h2, -, h3⟩ := Get_result (k := k) out hi
    refine ⟨r, o, s', h1, h3, fun h => ?_⟩
    cases r
    · rfl
    · exact absurd (h2.mp rfl) h

theorem C5_failure_atomicity_witness :
    ∃ s, run (SimpleLRU.mk0 10 none) (sampleCalls.take 6) = some s ∧
      (∃ r s', Put s "zz" "0123456789" = some (r, s') ∧ (r = false → s' = s) ∧
        (s._max_size < "zz".length + "0123456789".length → r = false)) ∧
      (∃ r s', PutIfAbsent s "zz" "0123456789" = some (r, s') ∧ (r = false → s' = s) ∧
        (s._max_size < "zz".length + "0123456789".length ∨ "zz" ∈ (entries s).map Prod.fst →
          r = false)) ∧
      (∃ r s', Set s "zz" "0123456789" = some (r, s') ∧ (r = false → s' = s) ∧
        (s._max_size < "zz".length + "0123456789".length ∨ "zz" ∉ (entries s).map Prod.fst →
          r = false)) ∧
      (∃ r s', Delete s "zz" = some (r, s') ∧ (r = false → s' = s) ∧
        ("zz" ∉ (entries s).map Prod.fst → r = false)) ∧
      (∃ r o s', Get s "zz" "old" = some (r, o, s') ∧ (r = false → s' = s ∧ o = "old") ∧
        ("zz" ∉ (entries s).map Prod.fst → r = false)) :=
  C5_failure_atomicity 10 none (sampleCalls.take 6) "zz" "0123456789" "old" (by decide) (by decide!)

/-- C6, as stated, does not hold: with entries `a`, `b`, `c` (head to tail) of 2 bytes each in
a cache of 10 bytes, `Set("c", "1234567")` returns true and has to evict `b`, the predecessor
of the tail `c`; afterwards `a` remains, and the tail is `a`, not the former predecessor `b`. -/
theorem C6_promotion_counterexample :
    (run (SimpleLRU.mk0 10 none) threeCalls).map
        (fun s => ((entries s).map Prod.fst, nodeKey s s._lru_tail)) =
      some (["a", "b", "c"], some "c") ∧
    ((run (SimpleLRU.mk0 10 none) threeCalls).bind (fun s => Set s "c" "1234567")).map
        (fun r => (r.1, (entries r.2).map Prod.fst, nodeKey r.2 r.2._lru_tail)) =
      some (true, ["c", "a"], some "a") ∧
    ¬ (((run (SimpleLRU.mk0 10 none) threeCalls).bind (fun s => Set s "c" "1234567")).map
        (fun r => nodeKey r.2 r.2._lru_tail) = some (some "b")) := by
  decide!

/-- C6 (promotion rule, amended): in a state reached by public calls, every `Put`,
`PutIfAbsent`, `Set` or `Get` returns, and when it returns true the entry with key `k` is the
head afterwards, whatever its position was before. If `k` was the tail, the entries behind it
afterwards are those of its former predecessors that the call did not evict, and, when any
remain, the tail is the last of them: its immediate former predecessor whenever the call
evicts nothing, which is always so for `Get`, and for `Put` and `Set` when the new value fits
without eviction. -/
theorem C6_promotion (max_size : Nat) (tail0 : Option Nat) (cs : List Call) (s : SimpleLRU)
    (k v out : String)
    (hmax : max_size < SIZE_MOD) (hsp : InSpace (SimpleLRU.mk0 max_size tail0) cs)
    (hrun : run (SimpleLRU.mk0 max_size tail0) cs = some s)
    (hmem : listBytes s + (k.length + v.length) < SIZE_MOD) :
    (∃ r s', Put s k v = some (r, s') ∧
      (r = true → nodeKey s' s'._lru_head = some k ∧ ∃ v' rest, entries s' = (k, v') :: rest)) ∧
    (∃ r s', PutIfAbsent s k v = some (r, s') ∧
      (r = true → nodeKey s' s'._lru_head = some k ∧ ∃ v' rest, entries s' = (k, v') :: rest)) ∧
    (∃ r s', Set s k v = some (r, s') ∧
      (r = true → nodeKey s' s'._lru_head = some k ∧ ∃ v' rest, entries s' = (k, v') :: rest)) ∧
    (∃ r o s', Get s k out = some (r, o, s') ∧
      (r = true → nodeKey s' s'._lru_head = some k ∧ ∃ v' rest, entries s' = (k, v') :: rest)) ∧
    (∀ pre w, entries s = pre ++ [(k, w)] →
      (∀ s', Put s k v = some (true, s') ∨ Set s k v = some (true, s') →
        ∃ kept dropped, pre = kept ++ dropped ∧ entries s' = (k, v) :: kept ∧
          (kept ≠ [] → nodeKey s' s'._lru_tail = kept.getLast?.map Prod.fst) ∧
          (listBytes s + v.length ≤ s._max_size + w.length → dropped = [])) ∧
      (∀ o s', Get s k out = some (true, o, s') →
        entries s' = (k, w) :: pre ∧
          (pre ≠ [] → nodeKey s' s'._lru_tail = pre.getLast?.map Prod.fst))) := by
  obtain ⟨es, hi, -⟩ := reach_state hmax hsp hrun
  rw [listBytes_eq hi.shape] at hmem ⊢
  refine ⟨?_, ?_, ?_, ?_, ?_⟩
  · by_cases hfit : k.length + v.length ≤ s._max_size
    · by_cases hk : k ∈ keysOf es
      · obtain ⟨xs, e, ys, rfl, rfl⟩ := mem_keysOf_split hk
        simp only [sumCost_append, sumCost_cons] at hmem
        obtain ⟨s', kept, h1, h2, -⟩ := Put_present (v := v) hi (by rw [sumCost_append]; omega) hfit
        exact ⟨true, s', h1, fun _ => h2.head_key⟩
      · obtain ⟨s', kept, h1, h2, -⟩ := Put_absent hi hmem hfit hk
        exact ⟨true, s', h1, fun _ => h2.head_key⟩
    · exact ⟨false, s, Put_oversized (by omega) (by omega), by simp⟩
  · obtain ⟨r, s', h1, h2, -⟩ := PutIfAbsent_result hi hmem
    refine ⟨r, s', h1, fun hr => ?_⟩
    obtain ⟨hfit, hk⟩ := h2.mp hr
    obtain ⟨s2, kept, h3, h4, -⟩ := PutIfAbsent_absent hi hmem hfit hk
    rw [h1, Option.some.injEq, Prod.mk.injEq] at h3
    rw [h3.2]
    exact h4.head_key
  · obtain ⟨r, s', h1, h2, -⟩ := Set_result hi hmem
    refine ⟨r, s', h1, fun hr => ?_⟩
    obtain ⟨hfit, hk⟩ := h2.mp hr
    obtain ⟨xs, e, ys, rfl, rfl⟩ := mem_keysOf_split hk
    simp only [sumCost_append, sumCost_cons] at hmem
    obtain ⟨s2, kept, h3, h4, -⟩ := Set_present (v := v) hi (by rw [sumCost_append]; omega) hfit
    rw [h1, Option.some.injEq, Prod.mk.injEq] at h3
    rw [h3.2]
    exact h4.head_key
  · by_cases hk : k ∈ keysOf es
    · obtain ⟨xs, e, ys, rfl, rfl⟩ := mem_keysOf_split hk
      obtain ⟨s', h1, h2, -⟩ := Get_present out hi
      exact ⟨true, e.value, s', h1, fun _ => h2.head_key⟩
    · exact ⟨false, out, s, Get_absent out hi hk, by simp⟩
  · intro pre w hpre
    rw [hi.shape.entries_eq] at hpre
    obtain ⟨xs, e, ys, rfl, rfl, rfl, rfl, hys⟩ := split_kv hpre
    obtain rfl : ys = [] := by simpa using hys
    simp only [sumCost_append, sumCost_cons, sumCost_nil] at hmem ⊢
    constructor
    · intro s' hs'
      rw [Put_eq_Set_of_present v hi, or_self] at hs'
      by_cases hfit : e.key.length + v.length ≤ s._max_size
      · obtain ⟨s2, kept, h3, h4, h5, -⟩ :=
          Set_present (v := v) hi (by rw [sumCost_append]; simp only [sumCost_nil]; omega) hfit
        rw [hs', Option.some.injEq, Prod.mk.injEq] at h3
        obtain rfl := h3.2
        have hall := h5.all
        obtain ⟨dropped, hd, -, -⟩ := h5
        simp only [List.append_nil] at hd hall
        refine ⟨kept.map Ent.kv, dropped.map Ent.kv, by simp [hd], ?_, ?_, ?_⟩
        · rw [h4.shape.entries_eq]; simp [Ent.kv]
        · intro hne
          exact h4.tail_key (by simpa using hne)
        · intro hle
          have := hall (by omega)
          rw [this] at hd
          simpa using hd
      · rw [Set_oversized (by omega) (by omega)] at hs'
        simp at hs'
    · intro o s' hs'
      obtain ⟨s2, h3, h4, -⟩ := Get_present out hi
      rw [hs', Option.some.injEq, Prod.mk.injEq, Prod.mk.injEq] at h3
      obtain rfl := h3.2.2
      simp only [List.append_nil] at h4
      refine ⟨by rw [h4.shape.entries_eq]; simp [Ent.kv], fun hne => ?_⟩
      exact h4.tail_key (by simpa using hne)

theorem C6_promotion_witness :
    (∃ r s', Put sampleState "b" "223344" = some (r, s') ∧
      (r = true → nodeKey s' s'._lru_head = some "b" ∧
        ∃ v' rest, entries s' = ("b", v') :: rest)) ∧
    (∃ r s', PutIfAbsent sampleState "b" "223344" = some (r, s') ∧
      (r = true → nodeKey s' s'._lru_head = some "b" ∧
        ∃ v' rest, entries s' = ("b", v') :: rest)) ∧
    (∃ r s', Set sampleState "b" "223344" = some (r, s') ∧
      (r = true → nodeKey s' s'._lru_head = some "b" ∧
        ∃ v' rest, entries s' = ("b", v') :: rest)) ∧
    (∃ r o s', Get sampleState "b" "" = some (r, o, s') ∧
      (r = true → nodeKey s' s'._lru_head = some "b" ∧
        ∃ v' rest, entries s' = ("b", v') :: rest)) ∧
    (∀ pre w, entries sampleState = pre ++ [("b", w)] →
      (∀ s', Put sampleState "b" "223344" = some (true, s') ∨
          Set sampleState "b" "223344" = some (true, s') →
        ∃ kept dropped, pre = kept ++ dropped ∧ entries s' = ("b", "223344") :: kept ∧
          (kept ≠ [] → nodeKey s' s'._lru_tail = kept.getLast?.map Prod.fst) ∧
          (listBytes sampleState + "223344".length ≤ sampleState._max_size + w.length →
            dropped = [])) ∧
      (∀ o s', Get sampleState "b" "" = some (true, o, s') →
        entries s' = ("b", w) :: pre ∧
          (pre ≠ [] → nodeKey s' s'._lru_tail = pre.getLast?.map Prod.fst))) :=
  C6_promotion 10 none (sampleCalls.take 6) sampleState "b" "223344" "" (by decide) (by decide!)
    sampleState_run (by decide!)

/-- C7 (LRU ordering): after every call of a sequence of public calls on a new cache, every key
of the recency list has a last successful access (by `Put`, `PutIfAbsent`, `Set` or `Get`),
and the keys read from head to tail are in strictly decreasing order of the time of that
access. -/
theorem C7_lru_ordering (max_size : Nat) (tail0 : Option Nat) (cs : List Call) (n : Nat)
    (hmax : max_size < SIZE_MOD) (hsp : InSpace (SimpleLRU.mk0 max_size tail0) cs) :
    ∃ s, run (SimpleLRU.mk0 max_size tail0) (cs.take n) = some s ∧
      (∀ k ∈ (entries s).map Prod.fst, ∃ t, lastAccess max_size tail0 (cs.take n) k = some t) ∧
      ((entries s).map Prod.fst).Pairwise (fun k1 k2 =>
        ∃ t1 t2, lastAccess max_size tail0 (cs.take n) k1 = some t1 ∧
          lastAccess max_size tail0 (cs.take n) k2 = some t2 ∧ t2 < t1) := by
  obtain ⟨s, es, hrun, hi, hr⟩ :=
    accessLog_spec 0 (fun _ => none) (Inv_mk0 hmax) (InSpace_take n hsp)
      (show Recent (fun _ => none) 0 (keysOf []) from ⟨by simp, by simp⟩)
  refine ⟨s, hrun, ?_, ?_⟩
  · rw [hi.shape.keys_eq]
    intro k hk
    obtain ⟨u, h1, -⟩ := hr.1 k hk
    exact ⟨u, h1⟩
  · rw [hi.shape.keys_eq]
    exact hr.2

theorem C7_lru_ordering_witness :
    ∃ s, run (SimpleLRU.mk0 10 none) (sampleCalls.take 6) = some s ∧
      (∀ k ∈ (entries s).map Prod.fst, ∃ t, lastAccess 10 none (sampleCalls.take 6) k = some t) ∧
      ((entries s).map Prod.fst).Pairwise (fun k1 k2 =>
        ∃ t1 t2, lastAccess 10 none (sampleCalls.take 6) k1 = some t1 ∧
          lastAccess 10 none (sampleCalls.take 6) k2 = some t2 ∧ t2 < t1) :=
  C7_lru_ordering 10 none sampleCalls 6 (by decide) (by decide!)

/-- C8 (strict LRU eviction on insert): in a state reached by public calls, `Put` and
`PutIfAbsent` of an absent key whose entry fits `max_size` return true, and the list after the
call is the new entry followed by the old list with its shortest tail-side suffix removed such
that the total cost is at most `max_size`; nothing is removed when the new entry fits in the
free budget. -/
theorem C8_strict_lru_insert (max_size : Nat) (tail0 : Option Nat) (cs : List Call)
    (s : SimpleLRU) (k v : String)
    (hmax : max_size < SIZE_MOD) (hsp : InSpace (SimpleLRU.mk0 max_size tail0) cs)
    (hrun : run (SimpleLRU.mk0 max_size tail0) cs = some s)
    (hmem : listBytes s + (k.length + v.length) < SIZE_MOD)
    (habs : k ∉ (entries s).map Prod.fst) (hfit : k.length + v.length ≤ s._max_size) :
    ∃ s' kept, Put s k v = some (true, s') ∧ PutIfAbsent s k v = some (true, s') ∧
      entries s' = (k, v) :: kept ∧
      ShortestSuffixRemoved s._max_size (k.length + v.length) (entries s) kept ∧
      (listBytes s + (k.length + v.length) ≤ s._max_size → kept = entries s) := by
  obtain ⟨es, hi, -⟩ := reach_state hmax hsp hrun
  rw [listBytes_eq hi.shape] at hmem ⊢
  rw [hi.shape.keys_eq] at habs
  rw [hi.shape.entries_eq]
  obtain ⟨s', kept, h1, h2, h3, -⟩ := Put_absent hi hmem hfit habs
  obtain ⟨s2, kept2, h4, -⟩ := PutIfAbsent_absent hi hmem hfit habs
  have hsame : PutIfAbsent s k v = Put s k v := by
    simp [PutIfAbsent, Put, hi.shape.find_none.mpr habs]
  refine ⟨s', kept.map Ent.kv, h1, hsame ▸ h1, ?_, h3.shortest, ?_⟩
  · rw [h2.shape.entries_eq]; simp [Ent.kv]
  · intro hle
    rw [h3.all hle]

theorem C8_strict_lru_insert_witness :
    ∃ s' kept, Put sampleState "d" "12345" = some (true, s') ∧
      PutIfAbsent sampleState "d" "12345" = some (true, s') ∧
      entries s' = ("d", "12345") :: kept ∧
      ShortestSuffixRemoved sampleState._max_size ("d".length + "12345".length)
        (entries sampleState) kept ∧
      (listBytes sampleState + ("d".length + "12345".length) ≤ sampleState._max_size →
        kept = entries sampleState) :=
  C8_strict_lru_insert 10 none (sampleCalls.take 6) sampleState "d" "12345" (by decide) (by decide!)
    sampleState_run (by decide!) (by decide!) (by decide!)

/-- C9, as stated, does not hold: an entry `("k1", "vvvv")` costs 6 bytes, not 5, so after the
two first calls of scenario 2 the cache does not hold `[k2, k1]` with `current_size = 10`. -/
theorem C9_scenario2_counterexample :
    ¬ ((run (SimpleLRU.mk0 10 none) (scenario2.take 2)).map
        (fun s => ((entries s).map Prod.fst, s._current_size)) = some (["k2", "k1"], 10)) ∧
    ¬ ((run (SimpleLRU.mk0 10 none) scenario2).map
        (fun s => ((entries s).map Prod.fst, s._current_size)) = some (["k3", "k2"], 7)) := by
  decide!

/-- C9 (end-to-end scenario 2, amended): on an empty cache with `max_size = 10`,
`Put("k1","vvvv")` costs 6 bytes; `Put("k2","vvvv")` costs 6 more, so it evicts `k1` (the tail)
and leaves order `[k2]` with `current_size = 6`; the following `Put("k3","v")` costs 3, evicts
nothing and yields order `[k3, k2]` with `current_size = 9`. All three calls return true. -/
theorem C9_scenario2 :
    (run (SimpleLRU.mk0 10 none) (scenario2.take 1)).map
        (fun s => (entries s, s._current_size)) = some ([("k1", "vvvv")], 6) ∧
    (run (SimpleLRU.mk0 10 none) (scenario2.take 2)).map
        (fun s => (entries s, s._current_size)) = some ([("k2", "vvvv")], 6) ∧
    (run (SimpleLRU.mk0 10 none) scenario2).map
        (fun s => (entries s, s._current_size)) = some ([("k3", "v"), ("k2", "vvvv")], 9) ∧
    ((run (SimpleLRU.mk0 10 none) []).bind (fun s => Put s "k1" "vvvv")).map Prod.fst = some true ∧
    ((run (SimpleLRU.mk0 10 none) (scenario2.take 1)).bind
        (fun s => Put s "k2" "vvvv")).map Prod.fst = some true ∧
    ((run (SimpleLRU.mk0 10 none) (scenario2.take 2)).bind
        (fun s => Put s "k3" "v")).map Prod.fst = some true := by
  decide!

/-- C10 (a growing update never evicts its own target): in a state reached by public calls,
for a present key `k` and a value `v` with `len(k) + len(v) ≤ max_size`, `Set` and `Put` return
true; afterwards `k` is the head and holds `v`, and the entries behind it are the old list
without `k`'s entry, with its shortest tail-side suffix removed such that the total cost is at
most `max_size` (so the survivors keep their order and values). -/
theorem C10_growing_update (max_size : Nat) (tail0 : Option Nat) (cs : List Call) (s : SimpleLRU)
    (k v w : String)
    (pre post : List (String × String))
    (hmax : max_size < SIZE_MOD) (hsp : InSpace (SimpleLRU.mk0 max_size tail0) cs)
    (hrun : run (SimpleLRU.mk0 max_size tail0) cs = some s)
    (hmem : listBytes s + (k.length + v.length) < SIZE_MOD)
    (hpres : entries s = pre ++ (k, w) :: post) (hfit : k.length + v.length ≤ s._max_size) :
    ∃ s' kept, Set s k v = some (true, s') ∧ Put s k v = some (true, s') ∧
      entries s' = (k, v) :: kept ∧ nodeKey s' s'._lru_head = some k ∧
      ShortestSuffixRemoved s._max_size (k.length + v.length) (pre ++ post) kept := by
  obtain ⟨es, hi, -⟩ := reach_state hmax hsp hrun
  rw [listBytes_eq hi.shape] at hmem
  rw [hi.shape.entries_eq] at hpres
  obtain ⟨xs, e, ys, rfl, rfl, rfl, rfl, rfl⟩ := split_kv hpres
  simp only [sumCost_append, sumCost_cons] at hmem
  have hsp2 : sumCost (xs ++ ys) + (e.key.length + v.length) < SIZE_MOD := by
    rw [sumCost_append]; omega
  obtain ⟨s', kept, h1, h2, h3, -⟩ := Set_present hi hsp2 hfit
  have hsame : Put s e.key v = Set s e.key v := by
    simp [Put, Set, hi.shape.find_mem (show e ∈ xs ++ e :: ys by simp)]
  refine ⟨s', kept.map Ent.kv, h1, hsame ▸ h1, ?_, ?_, ?_⟩
  · rw [h2.shape.entries_eq]; simp [Ent.kv]
  · rw [h2.shape.nodeKey_head]; rfl
  · have := h3.shortest
    simpa using this

theorem C10_growing_update_witness :
    ∃ s' kept, Set sampleState "b" "223344" = some (true, s') ∧
      Put sampleState "b" "223344" = some (true, s') ∧
      entries s' = ("b", "223344") :: kept ∧ nodeKey s' s'._lru_head = some "b" ∧
      ShortestSuffixRemoved sampleState._max_size ("b".length + "223344".length)
        ([("c", "4444")] ++ []) kept :=
  C10_growing_update 10 none (sampleCalls.take 6) sampleState "b" "223344" "22"
    [("c", "4444")] [] (by decide) (by decide!) sampleState_run (by decide!)
    (by decide!) (by decide!)

/-- C11 (round trip): in a state reached by public calls, `Put(k,v)` with
`len(k) + len(v) ≤ max_size` returns true, and `Get(k)` right after it returns true with
out-value `v`, whether `k` was present before or not and whatever the `Put` evicted. -/
theorem C11_round_trip (max_size : Nat) (tail0 : Option Nat) (cs : List Call) (s : SimpleLRU)
    (k v out : String)
    (hmax : max_size < SIZE_MOD) (hsp : InSpace (SimpleLRU.mk0 max_size tail0) cs)
    (hrun : run (SimpleLRU.mk0 max_size tail0) cs = some s)
    (hmem : listBytes s + (k.length + v.length) < SIZE_MOD)
    (hfit : k.length + v.length ≤ s._max_size) :
    ∃ s1 s2, Put s k v = some (true, s1) ∧ Get s1 k out = some (true, v, s2) := by
  obtain ⟨es, hi, -⟩ := reach_state hmax hsp hrun
  rw [listBytes_eq hi.shape] at hmem
  by_cases hk : k ∈ keysOf es
  · obtain ⟨xs, e, ys, rfl, rfl⟩ := mem_keysOf_split hk
    simp only [sumCost_append, sumCost_cons] at hmem
    obtain ⟨s1, kept, h1, h2, -⟩ := Put_present (v := v) hi (by rw [sumCost_append]; omega) hfit
    exact ⟨s1, s1, h1, Get_head out h2⟩
  · obtain ⟨s1, kept, h1, h2, -⟩ := Put_absent hi hmem hfit hk
    exact ⟨s1, s1, h1, Get_head out h2⟩

theorem C11_round_trip_witness :
    ∃ s1 s2, Put sampleState "b" "223344" = some (true, s1) ∧
      Get s1 "b" "" = some (true, "223344", s2) :=
  C11_round_trip 10 none (sampleCalls.take 6) sampleState "b" "223344" "" (by decide) (by decide!)
    sampleState_run (by decide!) (by decide!)

/-- C12 (idempotence of `Get`): in a state reached by public calls, `Get(k)` returns, and a
second `Get(k)` right after it returns the same boolean and the same out-value and leaves the
cache in exactly the state the first one left it in. -/
theorem C12_get_idempotent (max_size : Nat) (tail0 : Option Nat) (cs : List Call) (s : SimpleLRU)
    (k out : String)
    (hmax : max_size < SIZE_MOD) (hsp : InSpace (SimpleLRU.mk0 max_size tail0) cs)
    (hrun : run (SimpleLRU.mk0 max_size tail0) cs = some s) :
    ∃ r o s1, Get s k out = some (r, o, s1) ∧ Get s1 k o = some (r, o, s1) := by
  obtain ⟨es, hi, -⟩ := reach_state hmax hsp hrun
  by_cases hk : k ∈ keysOf es
  · obtain ⟨xs, e, ys, rfl, rfl⟩ := mem_keysOf_split hk
    obtain ⟨s1, h1, h2, -⟩ := Get_present out hi
    exact ⟨true, e.value, s1, h1, Get_head e.value h2⟩
  · have h1 := Get_absent out hi hk
    exact ⟨false, out, s, h1, h1⟩

theorem C12_get_idempotent_witness :
    ∃ r o s1, Get sampleState "b" "" = some (r, o, s1) ∧ Get s1 "b" o = some (r, o, s1) :=
  C12_get_idempotent 10 none (sampleCalls.take 6) sampleState "b" "" (by decide) (by decide!)
    sampleState_run

/-- C13 (`Put` decomposes into `PutIfAbsent`, else `Set`): in a state reached by public calls,
`Put(k,v)` returns, and running `PutIfAbsent(k,v)` and, only if that returned false,
`Set(k,v)` produces the same state and, as the disjunction of the two results, the same
result. -/
theorem C13_put_decomposes (max_size : Nat) (tail0 : Option Nat) (cs : List Call) (s : SimpleLRU)
    (k v : String)
    (hmax : max_size < SIZE_MOD) (hsp : InSpace (SimpleLRU.mk0 max_size tail0) cs)
    (hrun : run (SimpleLRU.mk0 max_size tail0) cs = some s)
    (hmem : listBytes s + (k.length + v.length) < SIZE_MOD) :
    ∃ r s', Put s k v = some (r, s') ∧ putIfAbsentElseSet s k v = some (r, s') := by
  obtain ⟨es, hi, -⟩ := reach_state hmax hsp hrun
  rw [listBytes_eq hi.shape] at hmem
  obtain ⟨r, s', h1, -⟩ := Put_result hi hmem
  exact ⟨r, s', h1, Put_eq_putIfAbsentElseSet s k v ▸ h1⟩

theorem C13_put_decomposes_witness :
    ∃ r s', Put sampleState "b" "223344" = some (r, s') ∧
      putIfAbsentElseSet sampleState "b" "223344" = some (r, s') :=
  C13_put_decomposes 10 none (sampleCalls.take 6) sampleState "b" "223344" (by decide) (by decide!)
    sampleState_run (by decide!)

/-- C14 (`Delete` removes exactly one entry): in a state reached by public calls, `Delete` of
a present key returns true; afterwards the list is the old list without the key's entry,
`current_size` has decreased by `len(k) + len(old value)`, and a following `Delete(k)` or
`Get(k)` returns false. If the entry was the only one, the cache is empty: `current_size` is
0, head and tail are null, the index is empty and no node is left in memory. -/
theorem C14_delete (max_size : Nat) (tail0 : Option Nat) (cs : List Call) (s : SimpleLRU)
    (k w out : String)
    (pre post : List (String × String))
    (hmax : max_size < SIZE_MOD) (hsp : InSpace (SimpleLRU.mk0 max_size tail0) cs)
    (hrun : run (SimpleLRU.mk0 max_size tail0) cs = some s)
    (hpres : entries s = pre ++ (k, w) :: post) :
    ∃ s', Delete s k = some (true, s') ∧ entries s' = pre ++ post ∧
      s'._current_size + (k.length + w.length) = s._current_size ∧
      Delete s' k = some (false, s') ∧ Get s' k out = some (false, out, s') ∧
      (pre ++ post = [] → s'._current_size = 0 ∧ s'._lru_head = none ∧ s'._lru_tail = none ∧
        s'._lru_index = [] ∧ ∀ a, s'.heap a = none) := by
  obtain ⟨es, hi, -⟩ := reach_state hmax hsp hrun
  rw [hi.shape.entries_eq] at hpres
  obtain ⟨xs, e, ys, rfl, rfl, rfl, rfl, rfl⟩ := split_kv hpres
  obtain ⟨s', h1, h2, -⟩ := Delete_present hi
  have hk := keysOf_remove_not_mem hi.shape.nodupK
  have hacct := hi.acct
  have hacct' := h2.acct
  simp only [sumCost_append, sumCost_cons] at hacct hacct'
  refine ⟨s', h1, by rw [h2.shape.entries_eq]; simp, by omega, Delete_absent h2 hk,
    Get_absent out h2 hk, ?_⟩
  intro hnil
  have hnil' : xs ++ ys = [] := by simpa using hnil
  have htl : s'._lru_tail = none := by
    obtain ⟨hx, hy⟩ := List.append_eq_nil.mp hnil'
    subst hx hy
    have hf := hi.shape.find_mem (show e ∈ [] ++ e :: [] by simp)
    simp only [Delete, hf, Option.map_eq_some', Prod.mk.injEq, true_and] at h1
    obtain ⟨s1, hd, rfl⟩ := h1
    exact deleteNode_sole hi.shape hd
  rw [hnil'] at h2
  exact ⟨h2.acct, h2.shape.head, htl, h2.shape.index.eq_nil,
    fun a => h2.shape.owned a (by simp)⟩

theorem C14_delete_witness :
    ∃ s', Delete sampleState "b" = some (true, s') ∧ entries s' = [("c", "4444")] ++ [] ∧
      s'._current_size + ("b".length + "22".length) = sampleState._current_size ∧
      Delete s' "b" = some (false, s') ∧ Get s' "b" "old" = some (false, "old", s') ∧
      ([("c", "4444")] ++ [] = [] → s'._current_size = 0 ∧ s'._lru_head = none ∧
        s'._lru_tail = none ∧ s'._lru_index = [] ∧ ∀ a, s'.heap a = none) :=
  C14_delete 10 none (sampleCalls.take 6) sampleState "b" "22" "old" [("c", "4444")] []
    (by decide) (by decide!) sampleState_run (by decide!)

/-- C15, as stated, does not hold: in a cache of 2 bytes that holds the entry with empty key
and empty value (cost 0), `Put("a","b")`, of cost exactly 2, returns true and evicts nothing,
so the cache contains a second entry afterwards. -/
theorem C15_exact_budget_counterexample :
    (run (SimpleLRU.mk0 2 none) (exactCalls.take 1)).map entries = some [("", "")] ∧
    ((run (SimpleLRU.mk0 2 none) (exactCalls.take 1)).bind (fun s => Put s "a" "b")).map
        (fun r => (r.1, entries r.2, r.2._current_size)) =
      some (true, [("a", "b"), ("", "")], 2) ∧
    "a".length + "b".length = 2 := by
  decide!

/-- C15 (exact-budget insert, amended): in a state reached by public calls, `Put(k,v)` with
`len(k) + len(v) = max_size` returns true and evicts every other entry of positive cost:
afterwards the list is `(k,v)` followed by the leading zero-cost entries of the other entries,
that is, nothing, or the entry with empty key and empty value when that one was the most
recently used of the others. -/
theorem C15_exact_budget (max_size : Nat) (tail0 : Option Nat) (cs : List Call) (s : SimpleLRU)
    (k v : String)
    (hmax : max_size < SIZE_MOD) (hsp : InSpace (SimpleLRU.mk0 max_size tail0) cs)
    (hrun : run (SimpleLRU.mk0 max_size tail0) cs = some s)
    (hmem : listBytes s + (k.length + v.length) < SIZE_MOD)
    (heq : k.length + v.length = s._max_size) :
    ∃ s', Put s k v = some (true, s') ∧
      entries s' = (k, v) :: (((entries s).filter (fun e => decide (e.1 ≠ k))).takeWhile
        (fun e => decide (cost e = 0))) ∧
      (∀ e ∈ (entries s').tail, e = ("", "")) ∧
      (("", "") ∉ entries s → entries s' = [(k, v)]) := by
  obtain ⟨es, hi, -⟩ := reach_state hmax hsp hrun
  rw [listBytes_eq hi.shape] at hmem
  have hent := hi.shape.entries_eq
  have main : ∃ s' kept others, Put s k v = some (true, s') ∧
      entries s' = (k, v) :: kept.map Ent.kv ∧ Evicted s._max_size s._max_size others kept ∧
      (entries s).filter (fun e => decide (e.1 ≠ k)) = others.map Ent.kv := by
    by_cases hk : k ∈ keysOf es
    · obtain ⟨xs, e, ys, rfl, rfl⟩ := mem_keysOf_split hk
      simp only [sumCost_append, sumCost_cons] at hmem
      obtain ⟨s', kept, h1, h2, h3, -⟩ :=
        Put_present (v := v) hi (by rw [sumCost_append]; omega) (by omega)
      refine ⟨s', kept, xs ++ ys, h1, by rw [h2.shape.entries_eq]; simp [Ent.kv], heq ▸ h3, ?_⟩
      rw [hent]
      exact filter_key_remove hi.shape.nodupK
    · obtain ⟨s', kept, h1, h2, h3, -⟩ := Put_absent hi hmem (by omega) hk
      refine ⟨s', kept, es, h1, by rw [h2.shape.entries_eq]; simp [Ent.kv], heq ▸ h3, ?_⟩
      rw [hent]
      exact filter_key_ne hk
  obtain ⟨s', kept, others, h1, h2, h3, h4⟩ := main
  have hkept := h3.exact
  have hzero : ∀ e ∈ kept.map Ent.kv, e = ("", "") := by
    intro e he
    rw [hkept] at he
    have := (List.mem_takeWhile_imp he)
    exact cost_zero (by simpa using this)
  refine ⟨s', h1, by rw [h2, hkept, h4], by rw [h2]; exact hzero, ?_⟩
  intro hno
  rw [h2]
  cases hkm : kept.map Ent.kv with
  | nil => rfl
  | cons x rest =>
    exfalso
    have hx : x ∈ kept.map Ent.kv := by rw [hkm]; simp
    have hx0 := hzero x hx
    rw [hkept] at hx
    have hx2 := (List.takeWhile_sublist _).subset hx
    rw [← h4] at hx2
    exact hno (hx0 ▸ (List.mem_filter.mp hx2).1)

theorem C15_exact_budget_witness :
    ∃ s', Put sampleState "d" "123456789" = some (true, s') ∧
      entries s' = ("d", "123456789") ::
        (((entries sampleState).filter (fun e => decide (e.1 ≠ "d"))).takeWhile
          (fun e => decide (cost e = 0))) ∧
      (∀ e ∈ (entries s').tail, e = ("", "")) ∧
      (("", "") ∉ entries sampleState → entries s' = [("d", "123456789")]) :=
  C15_exact_budget 10 none (sampleCalls.take 6) sampleState "d" "123456789" (by decide) (by decide!)
    sampleState_run (by decide!) (by decide!)

/-- C16 (`Get` is read-only on contents): in a state reached by public calls, `Get` of a
present key returns true with the stored value; afterwards the list is the old list with the
key's entry moved to the head, all entries with their old values and the others in their old
order, and `current_size` is unchanged. When the key was already the head, the whole state is
unchanged. -/
theorem C16_get_read_only (max_size : Nat) (tail0 : Option Nat) (cs : List Call) (s : SimpleLRU)
    (k w out : String)
    (pre post : List (String × String))
    (hmax : max_size < SIZE_MOD) (hsp : InSpace (SimpleLRU.mk0 max_size tail0) cs)
    (hrun : run (SimpleLRU.mk0 max_size tail0) cs = some s)
    (hpres : entries s = pre ++ (k, w) :: post) :
    ∃ s', Get s k out = some (true, w, s') ∧ entries s' = (k, w) :: (pre ++ post) ∧
      (entries s').Perm (entries s) ∧ s'._current_size = s._current_size ∧
      (pre = [] → s' = s) := by
  obtain ⟨es, hi, -⟩ := reach_state hmax hsp hrun
  have hent := hi.shape.entries_eq
  rw [hent] at hpres
  obtain ⟨xs, e, ys, rfl, rfl, rfl, rfl, rfl⟩ := split_kv hpres
  obtain ⟨s', h1, h2, -⟩ := Get_present out hi
  have hent' : entries s' = (e.key, e.value) :: (xs.map Ent.kv ++ ys.map Ent.kv) := by
    rw [h2.shape.entries_eq]; simp [Ent.kv]
  refine ⟨s', h1, hent', ?_, ?_, ?_⟩
  · rw [hent', hent]
    have hp : (xs.map Ent.kv ++ e.kv :: ys.map Ent.kv).Perm
        (e.kv :: (xs.map Ent.kv ++ ys.map Ent.kv)) := List.perm_middle
    simpa [Ent.kv] using hp.symm
  · rw [h2.acct, hi.acct]
    simp only [sumCost_cons, sumCost_append]
    omega
  · intro hpre
    obtain rfl : xs = [] := by simpa using hpre
    have := Get_head out (show Inv s (e :: ys) by simpa using hi)
    rw [h1] at this
    simpa using this

theorem C16_get_read_only_witness :
    ∃ s', Get sampleState "b" "" = some (true, "22", s') ∧
      entries s' = ("b", "22") :: ([("c", "4444")] ++ []) ∧
      (entries s').Perm (entries sampleState) ∧
      s'._current_size = sampleState._current_size ∧
      ([("c", "4444")] = [] → s' = sampleState) :=
  C16_get_read_only 10 none (sampleCalls.take 6) sampleState "b" "22" "" [("c", "4444")] []
    (by decide) (by decide!) sampleState_run (by decide!)

/-- C17 (shrinking update): in a state reached by public calls, `Set(k,v)` on a present key
whose stored value `w` is at least as long as `v` returns true and evicts nothing: afterwards
the list is `k`'s entry, now holding `v`, at the head, followed by all other entries with
their old values in their old order. -/
theorem C17_shrinking_update (max_size : Nat) (tail0 : Option Nat) (cs : List Call)
    (s : SimpleLRU) (k v w : String)
    (pre post : List (String × String))
    (hmax : max_size < SIZE_MOD) (hsp : InSpace (SimpleLRU.mk0 max_size tail0) cs)
    (hrun : run (SimpleLRU.mk0 max_size tail0) cs = some s)
    (hpres : entries s = pre ++ (k, w) :: post) (hlen : v.length ≤ w.length) :
    ∃ s', Set s k v = some (true, s') ∧ entries s' = (k, v) :: (pre ++ post) ∧
      nodeKey s' s'._lru_head = some k := by
  obtain ⟨es, hi, -⟩ := reach_state hmax hsp hrun
  rw [hi.shape.entries_eq] at hpres
  obtain ⟨xs, e, ys, rfl, rfl, rfl, rfl, rfl⟩ := split_kv hpres
  have hacct := hi.acct
  have hbud := hi.budget
  have hcap := hi.cap
  simp only [sumCost_append, sumCost_cons] at hacct
  obtain ⟨s', kept, h1, h2, h3, -⟩ := Set_present (v := v) hi
    (by rw [sumCost_append]; omega) (by omega)
  have hkept : kept = xs ++ ys := h3.all (by rw [sumCost_append]; omega)
  subst hkept
  refine ⟨s', h1, ?_, ?_⟩
  · rw [h2.shape.entries_eq]; simp [Ent.kv]
  · rw [h2.shape.nodeKey_head]; rfl

theorem C17_shrinking_update_witness :
    ∃ s', Set sampleState "c" "4" = some (true, s') ∧
      entries s' = ("c", "4") :: ([] ++ [("b", "22")]) ∧
      nodeKey s' s'._lru_head = some "c" :=
  C17_shrinking_update 10 none (sampleCalls.take 6) sampleState "c" "4" "4444" [] [("b", "22")]
    (by decide) (by decide!) sampleState_run (by decide!) (by decide)

/-- C18 (link integrity) fails on a cache that never held an entry. The constructor does
not initialise `_lru_tail`; here it starts as the non-null value 7. `Get("a")` and
`Delete("a")` return false and leave the list empty and the head null, and the tail is still
7, a pointer to no node. So it is not the case that head and tail are both null exactly when
the list is empty. -/
theorem C18_link_integrity :
    (run (SimpleLRU.mk0 10 (some 7)) uninitCalls).map
        (fun s => (nodes s, s._lru_head, s._lru_tail, nodeKey s s._lru_tail)) =
      some ([], none, some 7, none) ∧
    ¬ ∃ s, run (SimpleLRU.mk0 10 (some 7)) uninitCalls = some s ∧
      ((s._lru_head = none ∧ s._lru_tail = none) ↔ nodes s = []) := by
  have h : (run (SimpleLRU.mk0 10 (some 7)) uninitCalls).map
      (fun s => (nodes s, s._lru_head, s._lru_tail, nodeKey s s._lru_tail)) =
      some ([], none, some 7, none) := by decide!
  refine ⟨h, ?_⟩
  rintro ⟨s, hr, hiff⟩
  rw [hr] at h
  simp only [Option.map_some', Option.some.injEq, Prod.mk.injEq] at h
  have := (hiff.mpr h.1).2
  rw [h.2.2.1] at this
  exact absurd this (by simp)

/-- C19 (the eviction loop never evicts from nothing): in a state that satisfies the
representation invariant (links, index, accounting, budget), for a request that passed the size
check, every iteration of `freeSpace` hands a non-null node to `deleteNode`, both when it is
called without a target, as in `putAbsent`, and when it is called with a node of the list as
target, as in `setNode`. The loop returns after at most as many iterations as there are other
entries, with `current_size ≤ max_size` and at least the cost of the new or updated entry
left, and the target is still in memory with its key and value. -/
theorem C19_eviction_never_null (s : SimpleLRU) (es : List Ent) (k v : String) (hi : Inv s es)
    (hfit : k.length + v.length ≤ s._max_size)
    (hmem : listBytes s + (k.length + v.length) < SIZE_MOD) :
    ((∀ p ∈ freeSpaceVictims s.brk
          (withSize s (szAdd s._current_size (szAdd (strSize k) (strSize v)))) none,
        p ≠ none) ∧
      (freeSpaceVictims s.brk
          (withSize s (szAdd s._current_size (szAdd (strSize k) (strSize v))))
          none).length ≤ (entries s).length ∧
      ∃ s2, freeSpace
          (withSize s (szAdd s._current_size (szAdd (strSize k) (strSize v))))
          none = some s2 ∧
        k.length + v.length ≤ s2._current_size ∧ s2._current_size ≤ s2._max_size) ∧
    (∀ a nd, a ∈ nodes s → s.heap a = some nd → nd.key = k →
      (∀ p ∈ freeSpaceVictims s.brk
          (withSize s (szAdd s._current_size (szSub (strSize v) (strSize nd.value))))
          (some a), p ≠ none) ∧
      (freeSpaceVictims s.brk
          (withSize s (szAdd s._current_size (szSub (strSize v) (strSize nd.value))))
          (some a)).length + 1 ≤ (entries s).length ∧
      ∃ s2, freeSpace
          (withSize s (szAdd s._current_size (szSub (strSize v) (strSize nd.value))))
          (some a) = some s2 ∧
        k.length + v.length ≤ s2._current_size ∧ s2._current_size ≤ s2._max_size ∧
        ∃ nd2, s2.heap a = some nd2 ∧ nd2.key = nd.key ∧ nd2.value = nd.value) := by
  simp only [withSize]
  have hs := hi.shape
  have hacct := hi.acct
  have hbud := hi.budget
  have hcap := hi.cap
  rw [listBytes_eq hs] at hmem
  have hlen : (entries s).length = es.length := by rw [hs.entries_eq]; simp
  rw [hlen]
  constructor
  · have hcur : szAdd s._current_size (szAdd (strSize k) (strSize v)) =
        sumCost es + (k.length + v.length) := by
      rw [argSize_eq (by omega), hacct, szAdd_eq hmem]
    obtain ⟨h1, h2⟩ := freeSpaceVictims_spec Shape none (k.length + v.length) victim_none_step es
      { s with _current_size := szAdd s._current_size (szAdd (strSize k) (strSize v)) } s.brk
      (hs.size_irrel _) hs.card hcur hmem hfit
    obtain ⟨s2, kept, hrun, -, hev, hc2, hm2, -⟩ :=
      freeSpaceLoop_spec Shape none (k.length + v.length) victim_none_step es
        { s with _current_size := szAdd s._current_size (szAdd (strSize k) (strSize v)) } s.brk
        (hs.size_irrel _) hs.card hcur hmem hfit
    obtain ⟨_, _, hle, -⟩ := hev
    simp only at hm2 hle
    exact ⟨h1, h2, s2, hrun, by omega, by omega⟩
  · intro a nd ha hnd hk
    rw [hs.nodes_eq] at ha
    obtain ⟨xs, e, ys, rfl, rfl⟩ := mem_addrs_split ha
    rw [hs.cell, Option.some.injEq] at hnd
    subst hnd
    simp only at hk ⊢
    subst hk
    simp only [sumCost_append, sumCost_cons] at hmem hacct
    have hcur : szAdd s._current_size (szSub (strSize v) (strSize e.value)) =
        sumCost (xs ++ ys) + (e.key.length + v.length) := by
      rw [strSize_eq (by omega), strSize_eq (by omega),
        szAdd_szSub (by omega) (by omega) (by omega), sumCost_append]
      omega
    have hP : Shape
        { s with _current_size := szAdd s._current_size (szSub (strSize v) (strSize e.value)) }
        ((xs ++ ys).take xs.length ++ e :: (xs ++ ys).drop xs.length) := by
      simpa using hs.size_irrel _
    have hl : (xs ++ ys).length ≤ s.brk := by
      have := hs.card
      simp only [List.length_append, List.length_cons] at this ⊢
      omega
    have hlt : sumCost (xs ++ ys) + (e.key.length + v.length) < SIZE_MOD := by
      rw [sumCost_append]; omega
    obtain ⟨h1, h2⟩ := freeSpaceVictims_spec
      (fun s l => Shape s (l.take xs.length ++ e :: l.drop xs.length)) (some e.addr)
      (e.key.length + v.length) (victim_some_step e xs.length) (xs ++ ys)
      { s with _current_size := szAdd s._current_size (szSub (strSize v) (strSize e.value)) }
      s.brk hP hl hcur hlt hfit
    obtain ⟨s2, kept, hrun, hs2, hev, hc2, hm2, -⟩ := freeSpaceLoop_spec
      (fun s l => Shape s (l.take xs.length ++ e :: l.drop xs.length)) (some e.addr)
      (e.key.length + v.length) (victim_some_step e xs.length) (xs ++ ys)
      { s with _current_size := szAdd s._current_size (szSub (strSize v) (strSize e.value)) }
      s.brk hP hl hcur hlt hfit
    obtain ⟨_, _, hle, -⟩ := hev
    simp only at hm2 hle hs2
    refine ⟨h1, ?_, s2, hrun, by omega, by omega, _, hs2.cell, rfl, rfl⟩
    simp only [List.length_append, List.length_cons] at h2 ⊢
    omega

theorem C19_eviction_never_null_witness :
    ((∀ p ∈ freeSpaceVictims sampleState.brk
          (withSize sampleState
            (szAdd sampleState._current_size (szAdd (strSize "b") (strSize "223344"))))
          none, p ≠ none) ∧
      (freeSpaceVictims sampleState.brk
          (withSize sampleState
            (szAdd sampleState._current_size (szAdd (strSize "b") (strSize "223344"))))
          none).length ≤ (entries sampleState).length ∧
      ∃ s2, freeSpace
          (withSize sampleState
            (szAdd sampleState._current_size (szAdd (strSize "b") (strSize "223344"))))
          none = some s2 ∧
        "b".length + "223344".length ≤ s2._current_size ∧ s2._current_size ≤ s2._max_size) ∧
    (∀ a nd, a ∈ nodes sampleState → sampleState.heap a = some nd → nd.key = "b" →
      (∀ p ∈ freeSpaceVictims sampleState.brk
          (withSize sampleState
            (szAdd sampleState._current_size (szSub (strSize "223344") (strSize nd.value))))
          (some a), p ≠ none) ∧
      (freeSpaceVictims sampleState.brk
          (withSize sampleState
            (szAdd sampleState._current_size (szSub (strSize "223344") (strSize nd.value))))
          (some a)).length + 1 ≤ (entries sampleState).length ∧
      ∃ s2, freeSpace
          (withSize sampleState
            (szAdd sampleState._current_size (szSub (strSize "223344") (strSize nd.value))))
          (some a) = some s2 ∧
        "b".length + "223344".length ≤ s2._current_size ∧ s2._current_size ≤ s2._max_size ∧
        ∃ nd2, s2.heap a = some nd2 ∧ nd2.key = nd.key ∧ nd2.value = nd.value) := by
  obtain ⟨es, hi, -⟩ := reach_state (by decide) (by decide!) sampleState_run
  exact C19_eviction_never_null sampleState es "b" "223344" hi (by decide!) (by decide!)

/-- C20 (unsigned size arithmetic is exact): with `size_t` modelled as the integers modulo
`2 ^ 64`, in a state whose `current_size` is the true sum of the entry costs and at most
`max_size`, for an entry `(k, w)` of the list and a new value `v` such that the new total fits
in `size_t`, the update `current_size += len(v) - len(w)` of `setNode` yields exactly
`current_size - len(w) + len(v)`, also when `len(v) < len(w)` and the difference wraps around;
and the subtraction of `deleteNode` does not wrap: `len(k) + len(w) ≤ current_size`, and the
size `deleteNode` leaves for the node of this entry is `current_size - (len(k) + len(w))`. -/
theorem C20_size_arithmetic (s : SimpleLRU) (k w v : String)
    (hacct : s._current_size = listBytes s) (hbud : s._current_size ≤ s._max_size)
    (hmax : s._max_size < SIZE_MOD) (hent : (k, w) ∈ entries s)
    (hnew : listBytes s + v.length < SIZE_MOD + w.length) :
    w.length ≤ s._current_size ∧
    szAdd s._current_size (szSub (strSize v) (strSize w)) =
      s._current_size - w.length + v.length ∧
    (v.length < w.length →
      szSub (strSize v) (strSize w) = SIZE_MOD - (w.length - v.length) ∧
      szAdd s._current_size (szSub (strSize v) (strSize w)) ≤ s._current_size) ∧
    k.length + w.length ≤ s._current_size ∧
    szSub s._current_size (szAdd (strSize k) (strSize w)) =
      s._current_size - (k.length + w.length) ∧
    (∀ a nd s', a ∈ nodes s → s.heap a = some nd → nd.key = k → nd.value = w →
      deleteNode s (some a) = some s' →
      s'._current_size = s._current_size - (k.length + w.length) ∧
      s'._current_size ≤ s._max_size) := by
  have hcost : cost (k, w) ≤ listBytes s := cost_le_sum hent
  simp only [cost] at hcost
  rw [← hacct] at hcost hnew
  have hw : strSize w = w.length := strSize_eq (by omega)
  have hv : strSize v = v.length := strSize_eq (by omega)
  have hk : strSize k = k.length := strSize_eq (by omega)
  have h1 : szAdd s._current_size (szSub (strSize v) (strSize w)) =
      s._current_size - w.length + v.length := by
    rw [hw, hv, szAdd_szSub (by omega) (by omega) (by omega)]
  have h2 : szSub s._current_size (szAdd (strSize k) (strSize w)) =
      s._current_size - (k.length + w.length) := by
    rw [argSize_eq (by omega), szSub_eq (by omega) (by omega)]
  refine ⟨by omega, h1, ?_, by omega, h2, ?_⟩
  · intro hlt
    refine ⟨?_, by rw [h1]; omega⟩
    rw [hw, hv]
    unfold szSub
    simp only [SIZE_MOD] at *
    omega
  · intro a nd s' _ hnd hkey hval hdel
    have := deleteNode_size hnd hdel
    rw [hkey, hval, h2] at this
    exact ⟨this, by omega⟩

theorem C20_size_arithmetic_witness :
    "22".length ≤ sampleState._current_size ∧
    szAdd sampleState._current_size (szSub (strSize "2") (strSize "22")) =
      sampleState._current_size - "22".length + "2".length ∧
    ("2".length < "22".length →
      szSub (strSize "2") (strSize "22") = SIZE_MOD - ("22".length - "2".length) ∧
      szAdd sampleState._current_size (szSub (strSize "2") (strSize "22")) ≤
        sampleState._current_size) ∧
    "b".length + "22".length ≤ sampleState._current_size ∧
    szSub sampleState._current_size (szAdd (strSize "b") (strSize "22")) =
      sampleState._current_size - ("b".length + "22".length) ∧
    (∀ a nd s', a ∈ nodes sampleState → sampleState.heap a = some nd → nd.key = "b" →
      nd.value = "22" → deleteNode sampleState (some a) = some s' →
      s'._current_size = sampleState._current_size - ("b".length + "22".length) ∧
      s'._current_size ≤ sampleState._max_size) :=
  C20_size_arithmetic sampleState "b" "22" "2" (by decide!) (by decide!) (by decide!)
    (by decide!) (by decide!)

end Backend
end Afina

